import Mathlib

/-!
Verification development for the milo-core reactive engine
(`lib/messenger` Messenger, `lib/model/connector.js` Connector,
`lib/model/index.js` Model).

The JavaScript source is embedded shallowly:
* a Messenger instance becomes an explicit `MsgrState` record holding the
  two subscriber hashes (`_messageSubscribers`, `_patternMessageSubscribers`)
  as insertion-ordered association lists, mirroring JS object key order;
* callbacks and contexts are identified by their object identity only, so a
  subscriber is the pair of two identity tokens plus its options;
* RegExp objects are represented by their pattern source string, and a
  `ptest : String → String → Bool` parameter stands for `RegExp.test`
  (the messenger never inspects a regexp other than by keying and `test`);
* stateful methods become state-passing functions that also return the
  observable effects (subscriber invocations, message-source notifications,
  posted messages, data writes).
-/

namespace Milo

/-- A message key: either an exact string message or a regexp pattern
(represented by the pattern's source string, which is also what JS uses as
the property key when a RegExp is used to index an object). -/
inductive MKey where
  | str (s : String)
  | pat (p : String)
deriving DecidableEq, Repr

/-- Does the key hold an exact string message (the `typeof message == 'string'`
test of the source)? -/
def MKey.isStr : MKey → Bool
  | .str _ => true
  | .pat _ => false

/-- A subscriber record as stored in the subscriber hashes: the identity of
the callback function, the identity of the context, the `options.sync` and
`options.dispatchTimes` fields (absent options modelled as `none`), and the
`__messages` property that `_Messenger_on` defines on the record. -/
structure Subscriber where
  fn : Nat
  ctx : Nat
  sync : Option Bool
  dispatchTimes : Option Nat
  msgKey : MKey
deriving DecidableEq, Repr

/-- Identity of a subscriber: the (callback identity, context identity) pair,
the comparison performed by `_indexOfSubscriber`. -/
def subIdent (s : Subscriber) : Nat × Nat := (s.fn, s.ctx)

/-- A subscriber hash (`_messageSubscribers` / `_patternMessageSubscribers`):
an association list in insertion order, as JS objects enumerate their keys. -/
abbrev Table := List (MKey × List Subscriber)

/-- Property read `hash[message]`: first entry with the key. -/
def lookupTable : Table → MKey → Option (List Subscriber)
  | [], _ => none
  | (k', v) :: t, k => if k' = k then some v else lookupTable t k

/-- Property write `hash[message] = v`: update in place if the key exists,
else append (JS keeps the original insertion position on re-assignment). -/
def setTable : Table → MKey → List Subscriber → Table
  | [], k, v => [(k, v)]
  | (k', v') :: t, k, v => if k' = k then (k, v) :: t else (k', v') :: setTable t k v

/-- Property deletion `delete hash[message]`. -/
def deleteTable : Table → MKey → Table
  | [], _ => []
  | (k', v') :: t, k => if k' = k then t else (k', v') :: deleteTable t k

/-- Notification delivered to the attached MessageSource. -/
inductive Notif where
  | added (k : MKey)
  | removed (k : MKey)
deriving DecidableEq, Repr

/-- Source `_indexOfSubscriber`: index of the first entry whose `(subscriber, context)`
pair equals that of the given subscriber (`_.findIndex` of the source,
written as a transparent recursion). -/
def indexOfSubscriber : List Subscriber → Subscriber → Option Nat
  | [], _ => none
  | r :: t, sub =>
      if subIdent r = subIdent sub then some 0
      else (indexOfSubscriber t sub).map (· + 1)

/-- Source `_registerSubscriber`: registers a subscriber for one message in one hash.
If no (or an empty) subscriber list exists the list is created and, when a
message source is attached, `onSubscriberAdded(message)` is invoked — note the
source notifies for pattern keys as well, there is no string-type guard here.
Returns (was newly registered, new hash, notifications). -/
def registerSubscriber (hasSource : Bool) (t : Table) (k : MKey) (sub : Subscriber) :
    Bool × Table × List Notif :=
  match lookupTable t k with
  | none =>
      (true, setTable t k [sub], if hasSource then [Notif.added k] else [])
  | some l =>
      if l.isEmpty then
        (true, setTable t k [sub], if hasSource then [Notif.added k] else [])
      else
        match indexOfSubscriber l sub with
        | none => (true, setTable t k (l ++ [sub]), [])
        | some _ => (false, t, [])

/-- Source `_removeAllSubscribers`: deletes the hash entry; `onSubscriberRemoved` is
invoked only when the message is a string (`typeof message == 'string'`). -/
def removeAllSubscribers (hasSource : Bool) (t : Table) (k : MKey) :
    Table × List Notif :=
  (deleteTable t k, if hasSource && k.isStr then [Notif.removed k] else [])

/-- Source `_removeSubscriber`: removes one subscriber (located by identity) or, when
no subscriber is given, all subscribers for the message. When the spliced list
becomes empty the entry is removed via `_removeAllSubscribers`.
Returns (anything removed, new hash, notifications). -/
def removeSubscriber (hasSource : Bool) (t : Table) (k : MKey)
    (sub? : Option Subscriber) : Bool × Table × List Notif :=
  match lookupTable t k with
  | none => (false, t, [])
  | some l =>
      if l.isEmpty then (false, t, [])
      else
        match sub? with
        | some sub =>
            match indexOfSubscriber l sub with
            | none => (false, t, [])
            | some i =>
                let l' := l.eraseIdx i
                if l'.isEmpty then
                  let r := removeAllSubscribers hasSource (setTable t k l') k
                  (true, r.1, r.2)
                else (true, setTable t k l', [])
        | none =>
            let r := removeAllSubscribers hasSource t k
            (true, r.1, r.2)

/-- The state of a Messenger: its two subscriber hashes and whether a
MessageSource is attached. -/
structure MsgrState where
  exact : Table
  patterns : Table
  hasSource : Bool
deriving DecidableEq, Repr

/-- Source `_chooseSubscribersHash` selects the hash by the type of the message;
`msgrOn` routes a registration accordingly, stamping the subscriber's
`__messages` property with the message it is registered under
(`_.defineProperty(subscriber, '__messages', messages)` in `_Messenger_on`). -/
def msgrOn (S : MsgrState) (k : MKey) (sub : Subscriber) :
    Bool × MsgrState × List Notif :=
  let sub := { sub with msgKey := k }
  match k with
  | .str _ =>
      let r := registerSubscriber S.hasSource S.exact k sub
      (r.1, { S with exact := r.2.1 }, r.2.2)
  | .pat _ =>
      let r := registerSubscriber S.hasSource S.patterns k sub
      (r.1, { S with patterns := r.2.1 }, r.2.2)

/-- Source `off` routed by message type (`_Messenger_off` / `_removeSubscriber`). -/
def msgrOff (S : MsgrState) (k : MKey) (sub? : Option Subscriber) :
    Bool × MsgrState × List Notif :=
  match k with
  | .str _ =>
      let r := removeSubscriber S.hasSource S.exact k sub?
      (r.1, { S with exact := r.2.1 }, r.2.2)
  | .pat _ =>
      let r := removeSubscriber S.hasSource S.patterns k sub?
      (r.1, { S with patterns := r.2.1 }, r.2.2)

/-- Plain `on(message, fn)` for a function subscriber: the context defaults to
the host object, no options are set. -/
def msgrOnFn (S : MsgrState) (k : MKey) (fn ctx : Nat) :
    Bool × MsgrState × List Notif :=
  msgrOn S k { fn := fn, ctx := ctx, sync := none, dispatchTimes := none, msgKey := k }

/-- Source `once(message, fn)`: `on` with options `dispatchTimes = 1`. -/
def msgrOnce (S : MsgrState) (k : MKey) (fn ctx : Nat) :
    Bool × MsgrState × List Notif :=
  msgrOn S k { fn := fn, ctx := ctx, sync := none, dispatchTimes := some 1, msgKey := k }

/-- One observable subscriber invocation: the callback and context identities,
the dispatched message, and whether the call ran inline (`synchro` in
`_callSubscriber`) rather than on a deferred timeout. -/
structure Invocation where
  fn : Nat
  ctx : Nat
  message : MKey
  inline : Bool
deriving DecidableEq, Repr

/-- Identity carried by an invocation. -/
def invIdent (v : Invocation) : Nat × Nat := (v.fn, v.ctx)

/-- JS truthiness of `options.dispatchTimes` (`undefined` and `0` are falsy). -/
def dtTruthy : Option Nat → Bool
  | none => false
  | some n => n ≠ 0

/-- In-place mutation `subscriber.options.dispatchTimes--` on the record that
lives in the hash: the first identity-matching record under the subscriber's
registration key gets its counter decremented. -/
def decrementAt (l : List Subscriber) (sub : Subscriber) : List Subscriber :=
  match l with
  | [] => []
  | r :: t =>
      if subIdent r = subIdent sub then
        { r with dispatchTimes := r.dispatchTimes.map (· - 1) } :: t
      else r :: decrementAt t sub

/-- The table-level form of the decrement, applied at the registration key. -/
def decrementDT (S : MsgrState) (sub : Subscriber) : MsgrState :=
  match sub.msgKey with
  | .str _ =>
      match lookupTable S.exact sub.msgKey with
      | none => S
      | some l => { S with exact := setTable S.exact sub.msgKey (decrementAt l sub) }
  | .pat _ =>
      match lookupTable S.patterns sub.msgKey with
      | none => S
      | some l => { S with patterns := setTable S.patterns sub.msgKey (decrementAt l sub) }

/-- Source `_callSubscriber`: computes the inline/deferred flag, performs the
`dispatchTimes` bookkeeping (`off` before the call when the counter reaches 1,
decrement when above 1), and produces the invocation record. `syn` is the
`_synchronous` argument threaded from `postMessage`/`postMessageSync`. -/
def callSubscriber (S : MsgrState) (sub : Subscriber) (k : MKey) (syn : Bool) :
    MsgrState × Invocation :=
  let inline := (syn && sub.sync ≠ some false) || sub.sync = some true
  let S' :=
    if dtTruthy sub.dispatchTimes then
      if sub.dispatchTimes.getD 0 ≤ 1 then (msgrOff S sub.msgKey (some sub)).2.1
      else decrementDT S sub
    else S
  (S', { fn := sub.fn, ctx := sub.ctx, message := k, inline := inline })

/-- Source `_callSubscribers`: delivers to a snapshot of the subscriber list (the
source slices the array first), threading the messenger state through the
per-subscriber bookkeeping. -/
def callSubscribers (S : MsgrState) (k : MKey) (subs : List Subscriber) (syn : Bool) :
    MsgrState × List Invocation :=
  match subs with
  | [] => (S, [])
  | sub :: rest =>
      let r := callSubscriber S sub k syn
      let r' := callSubscribers r.1 k rest syn
      (r'.1, r.2 :: r'.2)

/-- Source `_callPatternSubscribers` iterates the keys of the pattern hash (snapshot
of the key set, live per-key values), testing each pattern against the string
message and filtering out subscribers whose identity occurs in the list of
already-called exact subscribers. -/
def callPatternSubscribers (ptest : String → String → Bool) (S : MsgrState)
    (s : String) (called : List Subscriber) (syn : Bool) (keys : List MKey) :
    MsgrState × List Invocation :=
  match keys with
  | [] => (S, [])
  | .str _ :: rest => callPatternSubscribers ptest S s called syn rest
  | .pat p :: rest =>
      if ptest p s then
        let subs := (lookupTable S.patterns (.pat p)).getD []
        let filtered := subs.filter (fun sub => indexOfSubscriber called sub = none)
        let r := callSubscribers S (.str s) filtered syn
        let r' := callPatternSubscribers ptest r.1 s called syn rest
        (r'.1, r.2 ++ r'.2)
      else callPatternSubscribers ptest S s called syn rest

/-- Source `postMessage(message, data, callback, _synchronous)`.
For a string message the exact subscribers are delivered first; the local
`msgSubscribers` variable aliases the array stored in the hash, so by the time
it is handed to `_callPatternSubscribers` as the already-called list it holds
the array's current (possibly spliced) contents — modelled by re-reading the
hash entry after the exact phase. For a RegExp message only the subscribers
registered under exactly that pattern are delivered.
Returns (new state, invocations in call order). -/
def postMessage (ptest : String → String → Bool) (S : MsgrState) (k : MKey)
    (syn : Bool) : MsgrState × List Invocation :=
  match k with
  | .str s =>
      let exact0 := (lookupTable S.exact k).getD []
      let r1 := callSubscribers S k exact0 syn
      let called := (lookupTable r1.1.exact k).getD []
      let r2 := callPatternSubscribers ptest r1.1 s called syn (r1.1.patterns.map Prod.fst)
      (r2.1, r1.2 ++ r2.2)
  | .pat _ =>
      let subs := (lookupTable S.patterns k).getD []
      callSubscribers S k subs syn

/-- Source `postMessageSync`: `postMessage` with the `_synchronous` flag set. -/
def postMessageSync (ptest : String → String → Bool) (S : MsgrState) (k : MKey) :
    MsgrState × List Invocation :=
  postMessage ptest S k true

/-- Source `getSubscribers(message, includePatternSubscribers)`: copies the exact (or
exact-pattern) entry, appends the subscribers of every matching non-empty
pattern entry unless the second argument is exactly `false` (and only for
string messages), and returns `undefined` instead of an empty array. -/
def getSubscribers (ptest : String → String → Bool) (S : MsgrState) (k : MKey)
    (includePatternSubscribers : Option Bool) : Option (List Subscriber) :=
  let base :=
    match k with
    | .str _ => (lookupTable S.exact k).getD []
    | .pat _ => (lookupTable S.patterns k).getD []
  let msgSubscribers :=
    if includePatternSubscribers ≠ some false ∧ k.isStr then
      match k with
      | .str s =>
          base ++ (S.patterns.foldl (fun acc kv =>
            match kv.1 with
            | .pat p => if ¬kv.2.isEmpty ∧ ptest p s then acc ++ kv.2 else acc
            | .str _ => acc) [])
      | .pat _ => base
    else base
  if msgSubscribers.isEmpty then none else some msgSubscribers

/-! ### Connector (`lib/model/connector.js`) -/

/-- A queued `datachanges` batch: its optional transaction id (`none` models a
falsy `batch.transaction`) and its ordered change list. The change type is a
parameter — the merge logic never inspects individual changes. -/
structure Batch (α : Type) where
  transaction : Option Nat
  changes : List α
deriving DecidableEq, Repr

/-- Source `mergeTransactions(batches)` of the scheduled flush. The accumulator `cur`
is the currently running transaction (the array also sitting last in the
output, to which `_.appendArray` appends in the source): a batch with a falsy
transaction id closes it; an empty batch contributes nothing; a batch with a
truthy transaction id extends the running transaction or starts one. Note the
source only tests truthiness of `batch.transaction`, it never compares ids. -/
def mergeAux {α : Type} : Option (List α) → List (Batch α) → List (List α)
  | cur, [] => (match cur with | none => [] | some c => [c])
  | cur, b :: bs =>
      match b.transaction with
      | none =>
          let closed := (match cur with | none => [] | some c => [c])
          if b.changes.isEmpty then closed ++ mergeAux none bs
          else closed ++ [b.changes] ++ mergeAux none bs
      | some _ =>
          if b.changes.isEmpty then mergeAux cur bs
          else
            match cur with
            | some c => mergeAux (some (c ++ b.changes)) bs
            | none => mergeAux (some b.changes) bs

/-- Entry point of the merge performed by `postChangeData`. -/
def mergeTransactions {α : Type} (batches : List (Batch α)) : List (List α) :=
  mergeAux none batches

/-- Modelled from the claim's words, for comparison with the source's
`mergeTransactions`: a running transaction remembers its id and only a
consecutive batch bearing the SAME id is concatenated into it; a batch with a
different id starts a new running transaction; a batch with no id closes the
running transaction and forms its own singleton transaction; empty change
lists contribute no transaction. -/
def mergeSameIdAux {α : Type} : Option (Nat × List α) → List (Batch α) → List (List α)
  | cur, [] => (match cur with | none => [] | some c => [c.2])
  | cur, b :: bs =>
      match b.transaction with
      | none =>
          let closed := (match cur with | none => [] | some c => [c.2])
          if b.changes.isEmpty then closed ++ mergeSameIdAux none bs
          else closed ++ [b.changes] ++ mergeSameIdAux none bs
      | some tid =>
          if b.changes.isEmpty then mergeSameIdAux cur bs
          else
            match cur with
            | some c =>
                if c.1 = tid then mergeSameIdAux (some (tid, c.2 ++ b.changes)) bs
                else c.2 :: mergeSameIdAux (some (tid, b.changes)) bs
            | none => mergeSameIdAux (some (tid, b.changes)) bs

/-- The same-id merge as the frozen claim states it. -/
def mergeTransactionsSameId {α : Type} (batches : List (Batch α)) : List (List α) :=
  mergeSameIdAux none batches

/-- Amended merge written independently as a left fold: state is the produced
transaction list plus a flag telling whether its last element is a running
transaction open for concatenation (any truthy id extends it, id equality is
not required). -/
def mergeAmendedStep {α : Type} (st : List (List α) × Bool) (b : Batch α) :
    List (List α) × Bool :=
  match b.transaction with
  | none =>
      if b.changes.isEmpty then (st.1, false)
      else (st.1 ++ [b.changes], false)
  | some _ =>
      if b.changes.isEmpty then st
      else if st.2 then (st.1.dropLast ++ [(st.1.getLast?.getD []) ++ b.changes], true)
      else (st.1 ++ [b.changes], true)

/-- The amended-claim merge: fold of `mergeAmendedStep` over arrival order. -/
def mergeTransactionsAmended {α : Type} (batches : List (Batch α)) : List (List α) :=
  (batches.foldl mergeAmendedStep ([], false)).1

/-- An effect a Connector direction performs on its target datasource or on
its own messenger. -/
inductive CEffect (α : Type) where
  | write (changes : List α) (withCallback : Bool)
  | setReverseLink (attach : Bool)
  | lifecycle (completed : Bool) (source target : Nat)
deriving DecidableEq, Repr

/-- Is the effect a `changedata` write? -/
def CEffect.isWrite {α : Type} : CEffect α → Bool
  | .write _ _ => true
  | _ => false

/-- Source `postChangeData`: merges the queued batches into transactions, clears the
queue, and issues each transaction as one synchronous `changedata` write; the
completion callback is attached only when the reverse link currently exists. -/
def postChangeData {α : Type} (hasReverseLink : Bool) (changesQueue : List (Batch α)) :
    List (CEffect α) × List (Batch α) :=
  ((mergeTransactions changesQueue).map (fun t => CEffect.write t hasReverseLink), [])

/-- Source `subscriptionSwitch(err, changeFinished)`, the completion callback of a
`changedata` write: an error returns immediately; otherwise the reverse link
is re-attached (`onSync`) when the change finished or detached (`off`) when it
started, and the matching lifecycle message is posted with the two endpoints. -/
def subscriptionSwitch {α : Type} (err changeFinished : Bool) (source target : Nat) :
    List (CEffect α) :=
  if err then []
  else [CEffect.setReverseLink changeFinished,
        CEffect.lifecycle changeFinished source target]

/-- First-match association-list lookup, the JS property read on a
configuration object. -/
def lookupAssoc {β : Type} : List (String × β) → String → Option β
  | [], _ => none
  | (k, v) :: t, s => if k = s then some v else lookupAssoc t s

/-- Source `String.replace` with a plain string pattern: replaces the first
occurrence of `pat` (list-of-characters core). -/
def replaceFirstAux (pat rep : List Char) : List Char → List Char
  | [] => if pat.isEmpty then rep else []
  | c :: t =>
      if pat.isPrefixOf (c :: t) then rep ++ (c :: t).drop pat.length
      else c :: replaceFirstAux pat rep t

/-- String wrapper of `replaceFirstAux`. -/
def replaceFirst (s pat rep : String) : String :=
  String.mk (replaceFirstAux pat.toList rep.toList s.toList)

/-- Source `_getStaticPath`: `path.replace` of an optional `.` or `[` followed by the
first `*` and everything after it — i.e. the literal part of a wildcard path
before its first `*`, without a dangling separator. -/
def staticPathChars (s : List Char) : List Char :=
  match s.findIdx? (· = '*') with
  | none => s
  | some i =>
      if 0 < i ∧ (s.get? (i - 1) = some '.' ∨ s.get? (i - 1) = some '[') then
        s.take (i - 1)
      else s.take i

/-- String wrapper of `staticPathChars`. -/
def staticPath (s : String) : String :=
  String.mk (staticPathChars s.toList)

/-- Does a path contain a wildcard star? -/
def hasStar (s : String) : Bool :=
  s.toList.contains '*'

/-- Source `modePattern = /^(\<*)\-+(\>*)$/`: a mode string is a run of `<`, then at
least one `-`, then a run of `>`; the result is the two run lengths (depth1,
depth2). The three character classes are disjoint, so greedy scanning is the
exact regex semantics. -/
def parseMode (s : List Char) : Option (Nat × Nat) :=
  let p1 := s.span (· = '<')
  let p2 := p1.2.span (· = '-')
  let p3 := p2.2.span (· = '>')
  if 1 ≤ p2.1.length ∧ p3.2 = [] then some (p1.1.length, p3.1.length) else none

/-- Source `setupMode`: throws (`Except.error`) when the mode does not match the
pattern, when both depths are nonzero and unequal, or when both are zero. -/
def setupMode (mode : List Char) : Except Unit (Nat × Nat) :=
  match parseMode mode with
  | none => .error ()
  | some d =>
      if d.1 ≠ 0 ∧ d.2 ≠ 0 ∧ d.1 ≠ d.2 then .error ()
      else if d.1 = 0 ∧ d.2 = 0 then .error ()
      else .ok d

/-- A processed wildcard translation rule, as built by
`getPatternTranslations`. The regexes produced by
`pathUtils.createRegexPath` are kept as their wildcard source paths; matching
them is delegated to a `ptest` parameter (that module is outside the embedded
sources). -/
structure PatRule where
  fromPat : String
  fromStatic : String
  toPat : String
  toStatic : String
deriving DecidableEq, Repr

/-- Source `getPatternTranslations`: scans the `pathTranslation` entries in order; an
entry with `*` on both sides must have identical substrings from the first `*`
on (else the constructor throws) and is moved from the plain map into the
pattern-rule list; an entry with `*` on exactly one side throws; an entry
without stars stays in the plain map. -/
def processTranslations : List (String × String) →
    Except Unit (List (String × String) × List PatRule)
  | [] => .ok ([], [])
  | (k, v) :: rest =>
      match k.toList.findIdx? (· = '*'), v.toList.findIdx? (· = '*') with
      | some i, some j =>
          if k.toList.drop i ≠ v.toList.drop j then .error ()
          else do
            let r ← processTranslations rest
            .ok (r.1, ⟨k, staticPath k, v, staticPath v⟩ :: r.2)
      | none, none => do
          let r ← processTranslations rest
          .ok ((k, v) :: r.1, r.2)
      | _, _ => .error ()

/-- The throwing part of `new Connector(ds1, mode, ds2, options)`: `setupMode`
runs first, then the optional `pathTranslation` table is processed.
Modelled from the spec: the remaining constructor body (messenger creation and
`turnOn`, including `pathUtils.createRegexPath`, whose module is not among the
embedded sources) raises no configuration error — §7 lists a malformed mode
string and an asymmetric wildcard translation as the only fatal construction
errors. -/
def connectorNew (mode : String) (pathTranslation : Option (List (String × String))) :
    Except Unit ((Nat × Nat) × List (String × String) × List PatRule) := do
  let d ← setupMode mode.toList
  match pathTranslation with
  | none => .ok (d, [], [])
  | some rules =>
      let r ← processTranslations rules
      .ok (d, r.1, r.2)

/-- A change record of a `datachanges` batch. -/
structure ChangeRec (V : Type) where
  path : String
  oldValue : V
  newValue : V
deriving DecidableEq, Repr

/-- A change after the per-direction handler processed it: re-pathed,
possibly re-valued, and tagged with the endpoint it came from. -/
structure OutChange (V : Type) where
  path : String
  oldValue : V
  newValue : V
  source : Nat
deriving DecidableEq, Repr

/-- A validator is modelled as the pair its completion callback receives for a
given new value: `(err, response.valid)`. -/
abbrev Validator (V : Type) := V → Bool × Bool

/-- Per-direction configuration captured by `linkDataSource`'s closure. -/
structure Direction (V : Type) where
  pathTranslation : Option (List (String × String))
  patternTranslation : List PatRule
  dataTranslation : Option (List (String × (V → V)))
  dataValidation : Option (List (String × List (Validator V)))
  subscriptionPath : String

/-- Source `translatePath(sourcePath)`: an exact (truthy) translation wins; otherwise
the first wildcard rule whose pattern matches rewrites the path by replacing
the source literal part with the target one (an empty replacement result
falls back to the source path: `translatedPath || sourcePath`); with no translation
table the path passes through unchanged when it matches the subscription
pattern (a wildcard regex when the subscription path has stars — matched via
`ptest` — or plain string equality otherwise). -/
def translatePath {V : Type} (ptest : String → String → Bool) (d : Direction V)
    (sourcePath : String) : Option String :=
  match d.pathTranslation with
  | some rules =>
      let t := (lookupAssoc rules sourcePath).getD ""
      if t ≠ "" then some t
      else if d.patternTranslation.isEmpty then none
      else
        match d.patternTranslation.find? (fun pt => ptest pt.fromPat sourcePath) with
        | none => none
        | some pt =>
            let tr := replaceFirst sourcePath pt.fromStatic pt.toStatic
            some (if tr = "" then sourcePath else tr)
  | none =>
      if (if hasStar d.subscriptionPath then ptest d.subscriptionPath sourcePath
          else d.subscriptionPath = sourcePath)
      then some sourcePath else none

/-- A `validated` message as posted on the source endpoint (the validator's
response with its `path` set to the source path). -/
structure ValidatedMsg where
  path : String
  valid : Bool
deriving DecidableEq, Repr

/-- Source `callValidator` accumulation: `passedCount` counts results with a truthy
`err || response.valid` while nothing has failed yet; reaching the validator
count posts the final response; any response with `valid` false is posted and
marks the run as failed. -/
def runValidatorsAux (sourcePath : String) (total : Nat) :
    Nat → Bool → List (Bool × Bool) → List ValidatedMsg
  | _, _, [] => []
  | passed, failed, r :: rest =>
      if !failed && (r.1 || r.2) then
        if passed + 1 = total then
          ⟨sourcePath, r.2⟩ :: runValidatorsAux sourcePath total (passed + 1) failed rest
        else if !r.2 then
          ⟨sourcePath, r.2⟩ :: runValidatorsAux sourcePath total (passed + 1) true rest
        else runValidatorsAux sourcePath total (passed + 1) failed rest
      else
        if !r.2 then ⟨sourcePath, r.2⟩ :: runValidatorsAux sourcePath total passed true rest
        else runValidatorsAux sourcePath total passed failed rest

/-- Runs the validators registered for one source path over their results. -/
def runValidators (sourcePath : String) (results : List (Bool × Bool)) :
    List ValidatedMsg :=
  runValidatorsAux sourcePath results.length 0 false results

/-- Processing of one change inside the `datachanges` handler: translate the
path (no target path drops the change), translate the data, then
`validateData` — which first propagates the change into `sendData.changes`
and only then runs any validators, whose results are posted as `validated`
messages on the source endpoint. Returns the propagated change (if any) and
the posted messages. -/
def onDataChange {V : Type} (ptest : String → String → Bool) (d : Direction V)
    (fromDS : Nat) (change : ChangeRec V) : Option (OutChange V) × List ValidatedMsg :=
  match translatePath ptest d change.path with
  | none => (none, [])
  | some targetPath =>
      let f :=
        match d.dataTranslation with
        | none => none
        | some dt => lookupAssoc dt change.path
      let oldV := match f with | some g => g change.oldValue | none => change.oldValue
      let newV := match f with | some g => g change.newValue | none => change.newValue
      let out : OutChange V := ⟨targetPath, oldV, newV, fromDS⟩
      let msgs :=
        match d.dataValidation with
        | none => []
        | some dv =>
            match lookupAssoc dv change.path with
            | none => []
            | some validators => runValidators change.path (validators.map (fun vf => vf newV))
      (some out, msgs)

/-- The `onData` handler for one incoming batch: builds `sendData` (same
transaction id, the propagated changes in batch order) and collects the
`validated` messages posted along the way. -/
def onData {V : Type} (ptest : String → String → Bool) (d : Direction V)
    (fromDS : Nat) (batch : Batch (ChangeRec V)) :
    Batch (OutChange V) × List ValidatedMsg :=
  let step := batch.changes.foldl
    (fun acc ch =>
      let r := onDataChange ptest d fromDS ch
      (acc.1 ++ (match r.1 with | some oc => [oc] | none => []), acc.2 ++ r.2))
    ([], [])
  ({ transaction := batch.transaction, changes := step.1 }, step.2)

/-! ### Model (`lib/model/index.js`) -/

/-- Result of calling a Model's `path` method (or the model function itself,
which applies `Model$path`): either the model object itself or a fresh
`ModelPath` view over the given access path. -/
inductive PathResult where
  | modelItself
  | modelPathView (accessPath : String)
deriving DecidableEq, Repr

/-- Source `Model$path(accessPath)`: a falsy access path returns `this`; otherwise a
new `ModelPath` bound to the model and the access path is constructed. The
access path argument is a string or absent; the JS-falsy string is `""`. -/
def modelPath (accessPath : Option String) : PathResult :=
  match accessPath with
  | none => .modelItself
  | some s => if s = "" then .modelItself else .modelPathView s

/-! ### Derived notions used to state the properties -/

/-- The invocation `_callSubscriber` produces for a subscriber under dispatch
of message `k` with `_synchronous` flag `syn`. -/
def mkInv (k : MKey) (syn : Bool) (sub : Subscriber) : Invocation :=
  { fn := sub.fn, ctx := sub.ctx, message := k,
    inline := (syn && sub.sync ≠ some false) || sub.sync = some true }

/-- Number of records with a given identity in a subscriber list. -/
def identCount (i : Nat × Nat) (l : List Subscriber) : Nat :=
  l.countP (fun r => subIdent r = i)

/-- Number of invocations of a given identity. -/
def invCount (i : Nat × Nat) (l : List Invocation) : Nat :=
  l.countP (fun v => invIdent v = i)

/-- The subscriber list stored for a message (empty when absent), read from
the hash that `_chooseSubscribersHash` selects. -/
def entryAt (S : MsgrState) (k : MKey) : List Subscriber :=
  match k with
  | .str _ => (lookupTable S.exact k).getD []
  | .pat _ => (lookupTable S.patterns k).getD []

/-- No record with identity `i` occurs in any entry of the hash. -/
def tableAbsent (i : Nat × Nat) (t : Table) : Prop :=
  ∀ kv ∈ t, identCount i kv.2 = 0

/-- Identity `i` is registered nowhere in the messenger. -/
def absentEv (i : Nat × Nat) (S : MsgrState) : Prop :=
  tableAbsent i S.exact ∧ tableAbsent i S.patterns

/-- Total number of records with identity `i` across all entries of a hash
(shadowed duplicate entries included, which makes it monotone under the
mutations dispatch performs). -/
def tableCount (i : Nat × Nat) (t : Table) : Nat :=
  (t.map (fun kv => identCount i kv.2)).sum

/-- Total number of records with identity `i` in the messenger. -/
def allCount (i : Nat × Nat) (S : MsgrState) : Nat :=
  tableCount i S.exact + tableCount i S.patterns

/-- The hash has no duplicate keys (always true of a JS object). -/
def tableKeysNodup (t : Table) : Prop :=
  (t.map Prod.fst).Nodup

/-- Every stored record's `__messages` property is the key it is stored
under, as `_Messenger_on` guarantees for every registration. -/
def tableMsgWF (t : Table) : Prop :=
  ∀ kv ∈ t, ∀ r ∈ kv.2, r.msgKey = kv.1

/-- Well-formedness every reachable messenger state enjoys: unique hash keys
and correctly stamped `__messages` properties. -/
def msgrWF (S : MsgrState) : Prop :=
  tableMsgWF S.exact ∧ tableMsgWF S.patterns ∧
  tableKeysNodup S.exact ∧ tableKeysNodup S.patterns

/-- The pattern-phase deliveries of a string-message dispatch, computed
entry-wise over a pattern hash: every matching pattern entry contributes its
subscribers except those whose identity occurs in `called`. -/
def patternInvs (ptest : String → String → Bool) (s : String)
    (called : List Subscriber) (syn : Bool) : Table → List Invocation
  | [] => []
  | (MKey.pat p, l) :: rest =>
      (if ptest p s then
        (l.filter (fun sub => indexOfSubscriber called sub = none)).map (mkInv (.str s) syn)
      else []) ++ patternInvs ptest s called syn rest
  | (MKey.str _, _) :: rest => patternInvs ptest s called syn rest

/-- The pattern-phase deliveries read off a fixed hash `T` along a key
list. -/
def patternInvsKeys (ptest : String → String → Bool) (s : String)
    (called : List Subscriber) (syn : Bool) (T : Table) : List MKey → List Invocation
  | [] => []
  | MKey.pat p :: rest =>
      (if ptest p s then
        (((lookupTable T (.pat p)).getD []).filter
            (fun sub => indexOfSubscriber called sub = none)).map (mkInv (.str s) syn)
      else []) ++ patternInvsKeys ptest s called syn T rest
  | MKey.str _ :: rest => patternInvsKeys ptest s called syn T rest

/-- The pattern subscribers `getSubscribers` appends for a string message:
every non-empty entry whose pattern matches, in table order. -/
def matchingPatternSubs (ptest : String → String → Bool) (s : String) : Table → List Subscriber
  | [] => []
  | (MKey.pat p, l) :: rest =>
      (if ¬l.isEmpty ∧ ptest p s then l else []) ++ matchingPatternSubs ptest s rest
  | (MKey.str _, _) :: rest => matchingPatternSubs ptest s rest

/-- Modelled from the claim, for comparison with the source's `postMessage`:
the exact-message subscribers are invoked, then every matching pattern
subscriber is invoked excluding any whose identity equals that of an
already-invoked exact-message subscriber (i.e. dedup against the exact
subscriber list as it stood when the dispatch began); a RegExp message
invokes only the subscribers registered under exactly that pattern. -/
def postMessageClaimed (ptest : String → String → Bool) (S : MsgrState) (k : MKey)
    (syn : Bool) : List Invocation :=
  match k with
  | .str s =>
      let exact0 := (lookupTable S.exact k).getD []
      exact0.map (mkInv k syn) ++ patternInvs ptest s exact0 syn S.patterns
  | .pat _ => ((lookupTable S.patterns k).getD []).map (mkInv k syn)

/-- A run of successive dispatches: each element is the dispatched message
with its `_synchronous` flag; invocations are concatenated in order. -/
def runPost (ptest : String → String → Bool) :
    MsgrState → List (MKey × Bool) → MsgrState × List Invocation
  | S, [] => (S, [])
  | S, (k, syn) :: rest =>
      let r := postMessage ptest S k syn
      let r' := runPost ptest r.1 rest
      (r'.1, r.2 ++ r'.2)

/-- The mode grammar as the claim words it: a run of left arrows, then
dashes (at least one), then right arrows. -/
def ModeGrammar (s : List Char) : Prop :=
  ∃ a b c, s = List.replicate a '<' ++ List.replicate b '-' ++ List.replicate c '>' ∧ 1 ≤ b

/-- Whether processing of an optional translation table succeeds (an absent
table is processed trivially). -/
def ptOk (pt : Option (List (String × String))) : Bool :=
  match pt with
  | none => true
  | some rules => (processTranslations rules).isOk

/-- A translation entry the claim calls invalid: a `*` on exactly one side,
or on both sides with differing substrings from the first `*` on. -/
def badTranslationEntry (k v : String) : Prop :=
  ((k.toList.contains '*') ≠ (v.toList.contains '*'))
  ∨ (∃ i j, k.toList.findIdx? (· = '*') = some i ∧ v.toList.findIdx? (· = '*') = some j
        ∧ k.toList.drop i ≠ v.toList.drop j)

/-- Concrete pattern test used by the closed counterexample states: a
pattern matches exactly the string equal to its source. -/
def ptEq : String → String → Bool := fun p s => p = s

/-- An empty messenger with a message source attached. -/
def emptyMsgr : MsgrState := { exact := [], patterns := [], hasSource := true }

/-- State with a one-shot subscriber for the exact message `"m"`. -/
def onceMsgr : MsgrState := (msgrOnce emptyMsgr (.str "m") 1 0).2.1

/-- State with a one-shot exact subscriber for `"m"` plus a pattern
subscriber of the same (callback, context) identity whose pattern matches
`"m"`. -/
def onceAndPatMsgr : MsgrState :=
  (msgrOn onceMsgr (.pat "m") ⟨1, 0, none, none, .pat "m"⟩).2.1

/-- A validator that always reports invalid, used by a closed connector
state. -/
def vfC8 : Validator Nat := fun _ => (false, false)

/-- Concrete direction configuration: one exact path translation from `"a"`
to `"b"` and one always-failing validator registered for `"a"`. -/
def cfgC8 : Direction Nat :=
  { pathTranslation := some [("a", "b")]
    patternTranslation := []
    dataTranslation := none
    dataValidation := some [("a", [vfC8])]
    subscriptionPath := "" }

/-- Concrete incoming batch: one change at path `"a"`. -/
def batchC8 : Batch (ChangeRec Nat) := ⟨none, [⟨"a", 0, 1⟩]⟩

/-! ### Table lemmas -/

theorem lookupTable_setTable_self (t : Table) (k : MKey) (v : List Subscriber) :
    lookupTable (setTable t k v) k = some v := by
  induction t with
  | nil => simp [setTable, lookupTable]
  | cons kv t ih =>
      obtain ⟨k', v'⟩ := kv
      by_cases h : k' = k
      · simp [setTable, h, lookupTable]
      · simp [setTable, h, lookupTable, ih]

theorem lookupTable_setTable_ne (t : Table) (k k' : MKey) (v : List Subscriber)
    (h : k' ≠ k) : lookupTable (setTable t k v) k' = lookupTable t k' := by
  induction t with
  | nil => simp [setTable, lookupTable, Ne.symm h]
  | cons kv t ih =>
      obtain ⟨k₀, v₀⟩ := kv
      by_cases hk : k₀ = k
      · simp [setTable, hk, lookupTable, Ne.symm h]
      · simp [setTable, hk, lookupTable, ih]

theorem lookupTable_deleteTable_ne (t : Table) (k k' : MKey)
    (h : k' ≠ k) : lookupTable (deleteTable t k) k' = lookupTable t k' := by
  induction t with
  | nil => simp [deleteTable, lookupTable]
  | cons kv t ih =>
      obtain ⟨k₀, v₀⟩ := kv
      by_cases hk : k₀ = k
      · simp [deleteTable, hk, lookupTable, Ne.symm h]
      · simp [deleteTable, hk, lookupTable, ih]

theorem mem_of_lookupTable (t : Table) (k : MKey) (v : List Subscriber)
    (h : lookupTable t k = some v) : (k, v) ∈ t := by
  induction t with
  | nil => simp [lookupTable] at h
  | cons kv t ih =>
      obtain ⟨k₀, v₀⟩ := kv
      by_cases hk : k₀ = k
      · subst hk
        simp [lookupTable] at h
        simp [h]
      · simp [lookupTable, hk] at h
        exact List.mem_cons_of_mem _ (ih h)

theorem mem_deleteTable (t : Table) (k : MKey) (kv : MKey × List Subscriber)
    (h : kv ∈ deleteTable t k) : kv ∈ t := by
  induction t with
  | nil => simp [deleteTable] at h
  | cons kv₀ t ih =>
      obtain ⟨k₀, v₀⟩ := kv₀
      by_cases hk : k₀ = k
      · subst hk
        simp [deleteTable] at h
        exact List.mem_cons_of_mem _ h
      · simp [deleteTable, hk] at h
        rcases h with h | h
        · simp [h]
        · exact List.mem_cons_of_mem _ (ih h)

theorem mem_setTable (t : Table) (k : MKey) (v : List Subscriber)
    (kv : MKey × List Subscriber) (h : kv ∈ setTable t k v) : kv ∈ t ∨ kv = (k, v) := by
  induction t with
  | nil => simp [setTable] at h; simp [h]
  | cons kv₀ t ih =>
      obtain ⟨k₀, v₀⟩ := kv₀
      by_cases hk : k₀ = k
      · subst hk
        simp [setTable] at h
        rcases h with h | h
        · right; simp [h]
        · left; exact List.mem_cons_of_mem _ h
      · simp [setTable, hk] at h
        rcases h with h | h
        · left; simp [h]
        · rcases ih h with h' | h'
          · left; exact List.mem_cons_of_mem _ h'
          · right; exact h'

theorem lookupTable_eq_none_iff (t : Table) (k : MKey) :
    lookupTable t k = none ↔ k ∉ t.map Prod.fst := by
  induction t with
  | nil => simp [lookupTable]
  | cons kv t ih =>
      obtain ⟨k₀, v₀⟩ := kv
      by_cases hk : k₀ = k
      · subst hk; simp [lookupTable]
      · simp [lookupTable, hk, ih, Ne.symm hk]

theorem map_fst_setTable_mem (t : Table) (k : MKey) (v : List Subscriber)
    (h : k ∈ t.map Prod.fst) : (setTable t k v).map Prod.fst = t.map Prod.fst := by
  induction t with
  | nil => simp at h
  | cons kv t ih =>
      obtain ⟨k₀, v₀⟩ := kv
      by_cases hk : k₀ = k
      · simp [setTable, hk]
      · rw [List.map_cons, List.mem_cons] at h
        have h' : k ∈ t.map Prod.fst := by
          rcases h with h | h
          · exact absurd h.symm hk
          · exact h
        simp [setTable, hk, ih h']

theorem map_fst_setTable_not_mem (t : Table) (k : MKey) (v : List Subscriber)
    (h : k ∉ t.map Prod.fst) : (setTable t k v).map Prod.fst = t.map Prod.fst ++ [k] := by
  induction t with
  | nil => simp [setTable]
  | cons kv t ih =>
      obtain ⟨k₀, v₀⟩ := kv
      rw [List.map_cons, List.mem_cons] at h
      push_neg at h
      have hk : ¬ k₀ = k := fun hh => h.1 hh.symm
      simp [setTable, hk, ih h.2]

theorem tableKeysNodup_setTable (t : Table) (k : MKey) (v : List Subscriber)
    (h : tableKeysNodup t) : tableKeysNodup (setTable t k v) := by
  unfold tableKeysNodup at *
  by_cases hk : k ∈ t.map Prod.fst
  · rw [map_fst_setTable_mem t k v hk]; exact h
  · rw [map_fst_setTable_not_mem t k v hk]
    refine List.Nodup.append h (List.nodup_singleton _) ?_
    intro a ha hb
    rw [List.mem_singleton] at hb
    subst hb
    exact hk ha

theorem map_fst_deleteTable_sublist (t : Table) (k : MKey) :
    ((deleteTable t k).map Prod.fst).Sublist (t.map Prod.fst) := by
  induction t with
  | nil => simp [deleteTable]
  | cons kv t ih =>
      obtain ⟨k₀, v₀⟩ := kv
      by_cases hk : k₀ = k
      · simp [deleteTable, hk]
      · simp only [deleteTable, hk, if_neg hk, List.map_cons]
        exact ih.cons₂ _

theorem tableKeysNodup_deleteTable (t : Table) (k : MKey)
    (h : tableKeysNodup t) : tableKeysNodup (deleteTable t k) :=
  (map_fst_deleteTable_sublist t k).nodup h

theorem lookupTable_deleteTable_self (t : Table) (k : MKey)
    (h : tableKeysNodup t) : lookupTable (deleteTable t k) k = none := by
  induction t with
  | nil => simp [deleteTable, lookupTable]
  | cons kv t ih =>
      obtain ⟨k₀, v₀⟩ := kv
      unfold tableKeysNodup at h
      rw [List.map_cons, List.nodup_cons] at h
      obtain ⟨h1, h2⟩ := h
      by_cases hk : k₀ = k
      · subst hk
        simp only [deleteTable, if_pos rfl]
        rw [lookupTable_eq_none_iff]
        exact h1
      · simp [deleteTable, hk, lookupTable, ih h2]

theorem lookupTable_of_mem_nodup (t : Table) (k : MKey) (v : List Subscriber)
    (hnd : tableKeysNodup t) (h : (k, v) ∈ t) : lookupTable t k = some v := by
  induction t with
  | nil => simp at h
  | cons kv t ih =>
      obtain ⟨k₀, v₀⟩ := kv
      unfold tableKeysNodup at hnd
      rw [List.map_cons, List.nodup_cons] at hnd
      obtain ⟨h1, h2⟩ := hnd
      rcases List.mem_cons.mp h with h' | h'
      · cases h'
        simp [lookupTable]
      · by_cases hk : k₀ = k
        · exfalso
          subst hk
          exact h1 (List.mem_map.mpr ⟨(k₀, v), h', rfl⟩)
        · simp [lookupTable, hk, ih h2 h']

/-! ### Counting lemmas -/

theorem identCount_append (i : Nat × Nat) (l1 l2 : List Subscriber) :
    identCount i (l1 ++ l2) = identCount i l1 + identCount i l2 :=
  List.countP_append _ l1 l2

theorem identCount_eq_zero (i : Nat × Nat) (l : List Subscriber) :
    identCount i l = 0 ↔ ∀ r ∈ l, subIdent r ≠ i := by
  unfold identCount
  rw [List.countP_eq_zero]
  simp

theorem indexOfSubscriber_eq_none_iff (l : List Subscriber) (sub : Subscriber) :
    indexOfSubscriber l sub = none ↔ ∀ r ∈ l, subIdent r ≠ subIdent sub := by
  induction l with
  | nil => simp [indexOfSubscriber]
  | cons r t ih =>
      by_cases h : subIdent r = subIdent sub
      · simp [indexOfSubscriber, h]
      · simp [indexOfSubscriber, h, ih]

theorem exists_ident_of_indexOf (l : List Subscriber) (sub : Subscriber) (n : Nat)
    (h : indexOfSubscriber l sub = some n) : ∃ r ∈ l, subIdent r = subIdent sub := by
  induction l generalizing n with
  | nil => simp [indexOfSubscriber] at h
  | cons r t ih =>
      by_cases hr : subIdent r = subIdent sub
      · exact ⟨r, List.mem_cons_self _ _, hr⟩
      · simp only [indexOfSubscriber, if_neg hr] at h
        obtain ⟨m, hm, hn⟩ := Option.map_eq_some'.mp h
        rcases ih m hm with ⟨r', hr', hid⟩
        exact ⟨r', List.mem_cons_of_mem _ hr', hid⟩

theorem identCount_pos_of_indexOf (l : List Subscriber) (sub : Subscriber) (n : Nat)
    (h : indexOfSubscriber l sub = some n) : 1 ≤ identCount (subIdent sub) l := by
  rcases exists_ident_of_indexOf l sub n h with ⟨r, hmem, hid⟩
  have : 0 < identCount (subIdent sub) l := by
    unfold identCount
    exact List.countP_pos_iff.mpr ⟨r, hmem, by simp [hid]⟩
  omega

theorem identCount_eraseIdx_of_indexOf (i : Nat × Nat) (l : List Subscriber)
    (sub : Subscriber) (n : Nat) (h : indexOfSubscriber l sub = some n) :
    identCount i (l.eraseIdx n) =
      if subIdent sub = i then identCount i l - 1 else identCount i l := by
  induction l generalizing n with
  | nil => simp [indexOfSubscriber] at h
  | cons r t ih =>
      by_cases hr : subIdent r = subIdent sub
      · simp only [indexOfSubscriber, if_pos hr, Option.some.injEq] at h
        subst h
        by_cases hi : subIdent sub = i
        · have hri : subIdent r = i := hr.trans hi
          simp [List.eraseIdx, identCount, List.countP_cons, hri, hi]
        · have hri : ¬ subIdent r = i := fun hh => hi (hr.symm.trans hh)
          simp [List.eraseIdx, identCount, List.countP_cons, hri, hi]
      · simp only [indexOfSubscriber, if_neg hr] at h
        obtain ⟨m, hm, hn⟩ := Option.map_eq_some'.mp h
        subst hn
        have hrec := ih m hm
        have hpos := identCount_pos_of_indexOf t sub m hm
        have herase : (r :: t).eraseIdx (m + 1) = r :: t.eraseIdx m := rfl
        rw [herase]
        unfold identCount at hrec hpos ⊢
        simp only [List.countP_cons]
        by_cases hi : subIdent sub = i
        · rw [if_pos hi] at hrec ⊢
          rw [hi] at hpos
          by_cases hri : subIdent r = i <;> simp [hri] <;> omega
        · rw [if_neg hi] at hrec ⊢
          by_cases hri : subIdent r = i <;> simp [hri] <;> omega

theorem identCount_decrementAt (i : Nat × Nat) (l : List Subscriber) (sub : Subscriber) :
    identCount i (decrementAt l sub) = identCount i l := by
  induction l with
  | nil => simp [decrementAt]
  | cons r t ih =>
      by_cases h : subIdent r = subIdent sub
      · simp only [decrementAt, if_pos h]
        simp [identCount, List.countP_cons, subIdent]
      · simp only [decrementAt, if_neg h]
        simp only [identCount, List.countP_cons]
        unfold identCount at ih
        omega

theorem invCount_map_mkInv (i : Nat × Nat) (k : MKey) (syn : Bool) (l : List Subscriber) :
    invCount i (l.map (mkInv k syn)) = identCount i l := by
  unfold invCount identCount
  rw [List.countP_map]
  rfl

theorem identCount_filter_le (i : Nat × Nat) (p : Subscriber → Bool) (l : List Subscriber) :
    identCount i (l.filter p) ≤ identCount i l := by
  induction l with
  | nil => simp [identCount]
  | cons r t ih =>
      by_cases h : p r
      · simp [identCount, List.countP_cons, h] at *
        omega
      · simp [identCount, List.countP_cons, h] at *
        omega

theorem identCount_filter_dedup (i : Nat × Nat) (called l : List Subscriber)
    (h : 1 ≤ identCount i called) :
    identCount i (l.filter (fun sub => indexOfSubscriber called sub = none)) = 0 := by
  rw [identCount_eq_zero]
  intro r hr
  rw [List.mem_filter] at hr
  intro hid
  have hnone := hr.2
  simp only [decide_eq_true_eq] at hnone
  rw [indexOfSubscriber_eq_none_iff] at hnone
  have hex : ∃ c ∈ called, subIdent c = i := by
    have hpos : 0 < called.countP (fun r => subIdent r = i) := by
      unfold identCount at h
      omega
    rcases List.countP_pos_iff.mp hpos with ⟨c, hc, hcp⟩
    exact ⟨c, hc, by simpa using hcp⟩
  rcases hex with ⟨c, hc, hcid⟩
  exact hnone c hc (by rw [hcid, hid])

theorem indexOfSubscriber_isSome_of_count (l : List Subscriber) (sub : Subscriber)
    (h : 1 ≤ identCount (subIdent sub) l) : ∃ n, indexOfSubscriber l sub = some n := by
  cases hidx : indexOfSubscriber l sub with
  | some n => exact ⟨n, rfl⟩
  | none =>
      exfalso
      rw [indexOfSubscriber_eq_none_iff] at hidx
      have : identCount (subIdent sub) l = 0 := by
        rw [identCount_eq_zero]
        exact hidx
      omega

/-! ### Invocation lemmas -/

theorem callSubscribers_invs (S : MsgrState) (k : MKey) (subs : List Subscriber)
    (syn : Bool) : (callSubscribers S k subs syn).2 = subs.map (mkInv k syn) := by
  induction subs generalizing S with
  | nil => simp [callSubscribers]
  | cons sub rest ih => simp [callSubscribers, callSubscriber, ih, mkInv]

theorem invCount_callSubscribers (i : Nat × Nat) (S : MsgrState) (k : MKey)
    (subs : List Subscriber) (syn : Bool) :
    invCount i (callSubscribers S k subs syn).2 = identCount i subs := by
  rw [callSubscribers_invs, invCount_map_mkInv]

theorem callSubscribers_append (S : MsgrState) (k : MKey) (a b : List Subscriber)
    (syn : Bool) :
    callSubscribers S k (a ++ b) syn =
      ((callSubscribers (callSubscribers S k a syn).1 k b syn).1,
       (callSubscribers S k a syn).2 ++ (callSubscribers (callSubscribers S k a syn).1 k b syn).2) := by
  induction a generalizing S with
  | nil => simp [callSubscribers]
  | cons sub rest ih => simp [callSubscribers, ih]

/-! ### Lookup stability of the removal path -/

theorem removeSubscriber_lookup_ne (hasSource : Bool) (t : Table) (k : MKey)
    (sub? : Option Subscriber) (k' : MKey) (h : k' ≠ k) :
    lookupTable (removeSubscriber hasSource t k sub?).2.1 k' = lookupTable t k' := by
  unfold removeSubscriber removeAllSubscribers
  cases hl : lookupTable t k with
  | none => rfl
  | some l =>
      by_cases he : l.isEmpty
      · simp [he]
      · cases sub? with
        | none => simp [he, lookupTable_deleteTable_ne t k k' h]
        | some sub =>
            cases hidx : indexOfSubscriber l sub with
            | none => simp [he, hidx]
            | some n =>
                by_cases he' : (l.eraseIdx n).isEmpty
                · simp [he, hidx, he',
                    lookupTable_deleteTable_ne (setTable t k (l.eraseIdx n)) k k' h,
                    lookupTable_setTable_ne t k k' (l.eraseIdx n) h]
                · simp [he, hidx, he',
                    lookupTable_setTable_ne t k k' (l.eraseIdx n) h]

theorem decrementDT_entry_stable (S : MsgrState) (sub : Subscriber) (key : MKey)
    (h : key ≠ sub.msgKey) : entryAt (decrementDT S sub) key = entryAt S key := by
  unfold decrementDT entryAt
  cases hmk : sub.msgKey with
  | str s =>
      cases hl : lookupTable S.exact (.str s) with
      | none => rfl
      | some l =>
          cases key with
          | str s' =>
              have : MKey.str s' ≠ MKey.str s := by rw [← hmk] at *; exact h
              simp [lookupTable_setTable_ne _ _ _ _ this]
          | pat _ => rfl
  | pat p =>
      cases hl : lookupTable S.patterns (.pat p) with
      | none => rfl
      | some l =>
          cases key with
          | str _ => rfl
          | pat p' =>
              have : MKey.pat p' ≠ MKey.pat p := by rw [← hmk] at *; exact h
              simp [lookupTable_setTable_ne _ _ _ _ this]

theorem msgrOff_entry_stable (S : MsgrState) (k : MKey) (sub? : Option Subscriber)
    (key : MKey) (h : key ≠ k) :
    entryAt (msgrOff S k sub?).2.1 key = entryAt S key := by
  unfold msgrOff entryAt
  cases k with
  | str s =>
      cases key with
      | str s' => simp [removeSubscriber_lookup_ne S.hasSource S.exact _ sub? _ h]
      | pat _ => simp
  | pat p =>
      cases key with
      | str _ => simp
      | pat p' => simp [removeSubscriber_lookup_ne S.hasSource S.patterns _ sub? _ h]

theorem callSubscriber_entry_stable (S : MsgrState) (sub : Subscriber) (k : MKey)
    (syn : Bool) (key : MKey) (h : key ≠ sub.msgKey) :
    entryAt (callSubscriber S sub k syn).1 key = entryAt S key := by
  unfold callSubscriber
  by_cases hdt : dtTruthy sub.dispatchTimes
  · by_cases hle : sub.dispatchTimes.getD 0 ≤ 1
    · simp only [hdt, hle, if_true]
      exact msgrOff_entry_stable S sub.msgKey (some sub) key h
    · simp only [hdt, hle, if_true, if_false]
      exact decrementDT_entry_stable S sub key h
  · simp [hdt]

/-! ### Absence of an identity is preserved by dispatch bookkeeping -/

theorem tableAbsent_setTable (i : Nat × Nat) (t : Table) (k : MKey)
    (v : List Subscriber) (h : tableAbsent i t) (hv : identCount i v = 0) :
    tableAbsent i (setTable t k v) := by
  intro kv hkv
  rcases mem_setTable t k v kv hkv with h' | h'
  · exact h kv h'
  · rw [h']
    exact hv

theorem tableAbsent_deleteTable (i : Nat × Nat) (t : Table) (k : MKey)
    (h : tableAbsent i t) : tableAbsent i (deleteTable t k) := by
  intro kv hkv
  exact h kv (mem_deleteTable t k kv hkv)

theorem identCount_lookup_of_absent (i : Nat × Nat) (t : Table) (k : MKey)
    (l : List Subscriber) (h : tableAbsent i t) (hl : lookupTable t k = some l) :
    identCount i l = 0 :=
  h (k, l) (mem_of_lookupTable t k l hl)

theorem tableAbsent_removeSubscriber (i : Nat × Nat) (hasSource : Bool) (t : Table)
    (k : MKey) (sub? : Option Subscriber) (h : tableAbsent i t) :
    tableAbsent i (removeSubscriber hasSource t k sub?).2.1 := by
  unfold removeSubscriber removeAllSubscribers
  cases hl : lookupTable t k with
  | none => exact h
  | some l =>
      have hl0 : identCount i l = 0 := identCount_lookup_of_absent i t k l h hl
      by_cases he : l.isEmpty
      · simpa [he] using h
      · cases sub? with
        | none => simpa [he] using tableAbsent_deleteTable i t k h
        | some sub =>
            cases hidx : indexOfSubscriber l sub with
            | none => simpa [he, hidx] using h
            | some n =>
                have herase : identCount i (l.eraseIdx n) = 0 := by
                  have := identCount_eraseIdx_of_indexOf i l sub n hidx
                  by_cases hid : subIdent sub = i <;> simp [hid] at this <;> omega
                by_cases he' : (l.eraseIdx n).isEmpty
                · simp only [he, hidx, he', Bool.false_eq_true, if_false, if_true]
                  exact tableAbsent_deleteTable i _ k
                    (tableAbsent_setTable i t k _ h herase)
                · simp only [he, hidx, he', Bool.false_eq_true, if_false]
                  exact tableAbsent_setTable i t k _ h herase

theorem absentEv_msgrOff (i : Nat × Nat) (S : MsgrState) (k : MKey)
    (sub? : Option Subscriber) (h : absentEv i S) :
    absentEv i (msgrOff S k sub?).2.1 := by
  unfold msgrOff
  cases k with
  | str s => exact ⟨tableAbsent_removeSubscriber i S.hasSource S.exact _ sub? h.1, h.2⟩
  | pat p => exact ⟨h.1, tableAbsent_removeSubscriber i S.hasSource S.patterns _ sub? h.2⟩

theorem absentEv_decrementDT (i : Nat × Nat) (S : MsgrState) (sub : Subscriber)
    (h : absentEv i S) : absentEv i (decrementDT S sub) := by
  unfold decrementDT
  cases hmk : sub.msgKey with
  | str s =>
      cases hl : lookupTable S.exact (.str s) with
      | none => exact h
      | some l =>
          refine ⟨tableAbsent_setTable i S.exact _ _ h.1 ?_, h.2⟩
          rw [identCount_decrementAt]
          exact identCount_lookup_of_absent i S.exact _ l h.1 hl
  | pat p =>
      cases hl : lookupTable S.patterns (.pat p) with
      | none => exact h
      | some l =>
          refine ⟨h.1, tableAbsent_setTable i S.patterns _ _ h.2 ?_⟩
          rw [identCount_decrementAt]
          exact identCount_lookup_of_absent i S.patterns _ l h.2 hl

theorem absentEv_callSubscriber (i : Nat × Nat) (S : MsgrState) (sub : Subscriber)
    (k : MKey) (syn : Bool) (h : absentEv i S) :
    absentEv i (callSubscriber S sub k syn).1 := by
  unfold callSubscriber
  by_cases hdt : dtTruthy sub.dispatchTimes
  · by_cases hle : sub.dispatchTimes.getD 0 ≤ 1
    · simp only [hdt, hle, if_true]
      exact absentEv_msgrOff i S sub.msgKey (some sub) h
    · simp only [hdt, hle, if_true, if_false]
      exact absentEv_decrementDT i S sub h
  · simpa [hdt] using h

theorem absentEv_callSubscribers (i : Nat × Nat) (S : MsgrState) (k : MKey)
    (subs : List Subscriber) (syn : Bool) (h : absentEv i S) :
    absentEv i (callSubscribers S k subs syn).1 := by
  induction subs generalizing S with
  | nil => simpa [callSubscribers] using h
  | cons sub rest ih =>
      simp only [callSubscribers]
      exact ih _ (absentEv_callSubscriber i S sub k syn h)

theorem callPatternSubscribers_absent (i : Nat × Nat)
    (ptest : String → String → Bool) (S : MsgrState) (s : String)
    (called : List Subscriber) (syn : Bool) (keys : List MKey) (h : absentEv i S) :
    invCount i (callPatternSubscribers ptest S s called syn keys).2 = 0 ∧
      absentEv i (callPatternSubscribers ptest S s called syn keys).1 := by
  induction keys generalizing S with
  | nil => simpa [callPatternSubscribers, invCount] using h
  | cons key rest ih =>
      cases key with
      | str s' => simpa [callPatternSubscribers] using ih S h
      | pat p =>
          by_cases hp : ptest p s
          · simp only [callPatternSubscribers, hp, if_true]
            have hsubs : identCount i ((lookupTable S.patterns (.pat p)).getD []) = 0 := by
              cases hl : lookupTable S.patterns (.pat p) with
              | none => simp [identCount]
              | some l => simpa using identCount_lookup_of_absent i S.patterns _ l h.2 hl
            have hfilter : identCount i
                (((lookupTable S.patterns (.pat p)).getD []).filter
                  (fun sub => indexOfSubscriber called sub = none)) = 0 := by
              have := identCount_filter_le i
                (fun sub => decide (indexOfSubscriber called sub = none))
                ((lookupTable S.patterns (.pat p)).getD [])
              omega
            have habs' := absentEv_callSubscribers i S (.str s)
              (((lookupTable S.patterns (.pat p)).getD []).filter
                (fun sub => indexOfSubscriber called sub = none)) syn h
            have hrec := ih _ habs'
            refine ⟨?_, hrec.2⟩
            have h1 : invCount i (callSubscribers S (.str s)
                (((lookupTable S.patterns (.pat p)).getD []).filter
                  (fun sub => indexOfSubscriber called sub = none)) syn).2 = 0 := by
              rw [invCount_callSubscribers]
              exact hfilter
            unfold invCount at h1 hrec ⊢
            rw [List.countP_append]
            omega
          · simpa [callPatternSubscribers, hp] using ih S h

theorem postMessage_absent (i : Nat × Nat) (ptest : String → String → Bool)
    (S : MsgrState) (k : MKey) (syn : Bool) (h : absentEv i S) :
    invCount i (postMessage ptest S k syn).2 = 0 ∧
      absentEv i (postMessage ptest S k syn).1 := by
  cases k with
  | str s =>
      simp only [postMessage]
      have hex : identCount i ((lookupTable S.exact (.str s)).getD []) = 0 := by
        cases hl : lookupTable S.exact (.str s) with
        | none => simp [identCount]
        | some l => simpa using identCount_lookup_of_absent i S.exact _ l h.1 hl
      have habs1 := absentEv_callSubscribers i S (.str s)
        ((lookupTable S.exact (.str s)).getD []) syn h
      have hrec := callPatternSubscribers_absent i ptest
        (callSubscribers S (.str s) ((lookupTable S.exact (.str s)).getD []) syn).1 s
        ((lookupTable (callSubscribers S (.str s)
            ((lookupTable S.exact (.str s)).getD []) syn).1.exact (.str s)).getD [])
        syn
        ((callSubscribers S (.str s)
            ((lookupTable S.exact (.str s)).getD []) syn).1.patterns.map Prod.fst)
        habs1
      refine ⟨?_, hrec.2⟩
      have h1 : invCount i (callSubscribers S (.str s)
          ((lookupTable S.exact (.str s)).getD []) syn).2 = 0 := by
        rw [invCount_callSubscribers]
        exact hex
      unfold invCount at h1 hrec ⊢
      rw [List.countP_append]
      omega
  | pat p =>
      simp only [postMessage]
      have hsubs : identCount i ((lookupTable S.patterns (.pat p)).getD []) = 0 := by
        cases hl : lookupTable S.patterns (.pat p) with
        | none => simp [identCount]
        | some l => simpa using identCount_lookup_of_absent i S.patterns _ l h.2 hl
      constructor
      · rw [invCount_callSubscribers]
        exact hsubs
      · exact absentEv_callSubscribers i S (.pat p) _ syn h

theorem runPost_absent (i : Nat × Nat) (ptest : String → String → Bool)
    (S : MsgrState) (msgs : List (MKey × Bool)) (h : absentEv i S) :
    invCount i (runPost ptest S msgs).2 = 0 ∧ absentEv i (runPost ptest S msgs).1 := by
  induction msgs generalizing S with
  | nil => simpa [runPost, invCount] using h
  | cons m rest ih =>
      obtain ⟨k, syn⟩ := m
      simp only [runPost]
      have h1 := postMessage_absent i ptest S k syn h
      have h2 := ih _ h1.2
      unfold invCount at *
      rw [List.countP_append]
      constructor
      · omega
      · exact h2.2

/-! ### The pattern-phase dedup filter kills an identity present in `called` -/

theorem callPatternSubscribers_dedup (i : Nat × Nat)
    (ptest : String → String → Bool) (S : MsgrState) (s : String)
    (called : List Subscriber) (syn : Bool) (keys : List MKey)
    (h : 1 ≤ identCount i called) :
    invCount i (callPatternSubscribers ptest S s called syn keys).2 = 0 := by
  induction keys generalizing S with
  | nil => simp [callPatternSubscribers, invCount]
  | cons key rest ih =>
      cases key with
      | str s' => simpa [callPatternSubscribers] using ih S
      | pat p =>
          by_cases hp : ptest p s
          · simp only [callPatternSubscribers, hp, if_true]
            have hfilter := identCount_filter_dedup i called
              ((lookupTable S.patterns (.pat p)).getD []) h
            have h1 : invCount i (callSubscribers S (.str s)
                (((lookupTable S.patterns (.pat p)).getD []).filter
                  (fun sub => indexOfSubscriber called sub = none)) syn).2 = 0 := by
              rw [invCount_callSubscribers]
              exact hfilter
            have h2 := ih (callSubscribers S (.str s)
                (((lookupTable S.patterns (.pat p)).getD []).filter
                  (fun sub => indexOfSubscriber called sub = none)) syn).1
            unfold invCount at h1 h2 ⊢
            rw [List.countP_append]
            omega
          · simpa [callPatternSubscribers, hp] using ih S

/-! ### Record-count accounting over the hashes -/

theorem tableCount_eq_zero_iff (i : Nat × Nat) (t : Table) :
    tableCount i t = 0 ↔ tableAbsent i t := by
  unfold tableCount tableAbsent
  induction t with
  | nil => simp
  | cons kv t ih => simp [List.sum_cons, ih]

theorem allCount_eq_zero_iff (i : Nat × Nat) (S : MsgrState) :
    allCount i S = 0 ↔ absentEv i S := by
  unfold allCount absentEv
  rw [← tableCount_eq_zero_iff, ← tableCount_eq_zero_iff]
  omega

theorem identCount_le_tableCount (i : Nat × Nat) (t : Table) (k : MKey)
    (l : List Subscriber) (hl : lookupTable t k = some l) :
    identCount i l ≤ tableCount i t := by
  induction t with
  | nil => simp [lookupTable] at hl
  | cons kv t ih =>
      obtain ⟨k₀, v₀⟩ := kv
      unfold tableCount
      by_cases hk : k₀ = k
      · simp [lookupTable, hk] at hl
        simp [List.sum_cons, hl]
      · simp [lookupTable, hk] at hl
        have := ih hl
        unfold tableCount at this
        simp [List.sum_cons]
        omega

theorem tableCount_setTable_some (i : Nat × Nat) (t : Table) (k : MKey)
    (l v : List Subscriber) (hl : lookupTable t k = some l) :
    tableCount i (setTable t k v) + identCount i l = tableCount i t + identCount i v := by
  induction t with
  | nil => simp [lookupTable] at hl
  | cons kv t ih =>
      obtain ⟨k₀, v₀⟩ := kv
      by_cases hk : k₀ = k
      · simp [lookupTable, hk] at hl
        simp [setTable, hk, tableCount, List.sum_cons, hl]
        omega
      · simp [lookupTable, hk] at hl
        have := ih hl
        simp [setTable, hk, tableCount, List.sum_cons]
        unfold tableCount at this
        omega

theorem tableCount_setTable_none (i : Nat × Nat) (t : Table) (k : MKey)
    (v : List Subscriber) (hl : lookupTable t k = none) :
    tableCount i (setTable t k v) = tableCount i t + identCount i v := by
  induction t with
  | nil => simp [setTable, tableCount]
  | cons kv t ih =>
      obtain ⟨k₀, v₀⟩ := kv
      by_cases hk : k₀ = k
      · simp [lookupTable, hk] at hl
      · simp [lookupTable, hk] at hl
        have := ih hl
        simp [setTable, hk, tableCount, List.sum_cons]
        unfold tableCount at this
        omega

theorem tableCount_deleteTable_some (i : Nat × Nat) (t : Table) (k : MKey)
    (l : List Subscriber) (hl : lookupTable t k = some l) :
    tableCount i (deleteTable t k) + identCount i l = tableCount i t := by
  induction t with
  | nil => simp [lookupTable] at hl
  | cons kv t ih =>
      obtain ⟨k₀, v₀⟩ := kv
      by_cases hk : k₀ = k
      · simp [lookupTable, hk] at hl
        simp [deleteTable, hk, tableCount, List.sum_cons, hl]
        omega
      · simp [lookupTable, hk] at hl
        have := ih hl
        simp [deleteTable, hk, tableCount, List.sum_cons]
        unfold tableCount at this
        omega

theorem tableCount_removeSubscriber_ne (i : Nat × Nat) (hasSource : Bool) (t : Table)
    (k : MKey) (sub : Subscriber) (h : subIdent sub ≠ i) :
    tableCount i (removeSubscriber hasSource t k (some sub)).2.1 = tableCount i t := by
  unfold removeSubscriber removeAllSubscribers
  cases hl : lookupTable t k with
  | none => rfl
  | some l =>
      by_cases he : l.isEmpty
      · simp [he]
      · cases hidx : indexOfSubscriber l sub with
        | none => simp [he, hidx]
        | some n =>
            have herase : identCount i (l.eraseIdx n) = identCount i l := by
              have := identCount_eraseIdx_of_indexOf i l sub n hidx
              simp [h] at this
              exact this
            have hset := tableCount_setTable_some i t k l (l.eraseIdx n) hl
            by_cases he' : (l.eraseIdx n).isEmpty
            · have hzero : identCount i (l.eraseIdx n) = 0 := by
                rw [List.isEmpty_iff] at he'
                simp [he', identCount]
              have hdel := tableCount_deleteTable_some i (setTable t k (l.eraseIdx n)) k
                (l.eraseIdx n) (lookupTable_setTable_self t k (l.eraseIdx n))
              simp only [he, Bool.false_eq_true, if_false, hidx, he', if_true]
              omega
            · simp only [he, Bool.false_eq_true, if_false, hidx, he']
              omega

theorem tableCount_removeSubscriber_self (i : Nat × Nat) (hasSource : Bool) (t : Table)
    (k : MKey) (sub : Subscriber) (hid : subIdent sub = i)
    (hpos : 1 ≤ identCount i ((lookupTable t k).getD [])) :
    tableCount i (removeSubscriber hasSource t k (some sub)).2.1 + 1 = tableCount i t := by
  unfold removeSubscriber removeAllSubscribers
  cases hl : lookupTable t k with
  | none => simp [hl, identCount] at hpos
  | some l =>
      rw [hl] at hpos
      simp only [Option.getD_some] at hpos
      have he : ¬ l.isEmpty := by
        intro he
        rw [List.isEmpty_iff] at he
        simp [he, identCount] at hpos
      obtain ⟨n, hidx⟩ := indexOfSubscriber_isSome_of_count l sub (by rw [hid]; exact hpos)
      have herase : identCount i (l.eraseIdx n) = identCount i l - 1 := by
        have := identCount_eraseIdx_of_indexOf i l sub n hidx
        simp [hid] at this
        exact this
      have hset := tableCount_setTable_some i t k l (l.eraseIdx n) hl
      by_cases he' : (l.eraseIdx n).isEmpty
      · have hzero : identCount i (l.eraseIdx n) = 0 := by
          rw [List.isEmpty_iff] at he'
          simp [he', identCount]
        have hdel := tableCount_deleteTable_some i (setTable t k (l.eraseIdx n)) k
          (l.eraseIdx n) (lookupTable_setTable_self t k (l.eraseIdx n))
        simp only [he, Bool.false_eq_true, if_false, hidx, he', if_true]
        omega
      · simp only [he, Bool.false_eq_true, if_false, hidx, he']
        omega

theorem entry_identCount_decrementDT (i : Nat × Nat) (S : MsgrState) (sub : Subscriber)
    (key : MKey) :
    identCount i (entryAt (decrementDT S sub) key) = identCount i (entryAt S key) := by
  by_cases hkey : key = sub.msgKey
  · rw [hkey]
    unfold decrementDT entryAt
    cases hmk : sub.msgKey with
    | str s =>
        cases hl : lookupTable S.exact (MKey.str s) with
        | none => simp [hl]
        | some l => simp [hl, lookupTable_setTable_self, identCount_decrementAt]
    | pat p =>
        cases hl : lookupTable S.patterns (MKey.pat p) with
        | none => simp [hl]
        | some l => simp [hl, lookupTable_setTable_self, identCount_decrementAt]
  · rw [decrementDT_entry_stable S sub key hkey]

theorem allCount_decrementDT (i : Nat × Nat) (S : MsgrState) (sub : Subscriber) :
    allCount i (decrementDT S sub) = allCount i S := by
  unfold decrementDT allCount
  cases hmk : sub.msgKey with
  | str s =>
      cases hl : lookupTable S.exact (.str s) with
      | none => rfl
      | some l =>
          have := tableCount_setTable_some i S.exact (.str s) l (decrementAt l sub) hl
          rw [identCount_decrementAt] at this
          simp only []
          omega
  | pat p =>
      cases hl : lookupTable S.patterns (.pat p) with
      | none => rfl
      | some l =>
          have := tableCount_setTable_some i S.patterns (.pat p) l (decrementAt l sub) hl
          rw [identCount_decrementAt] at this
          simp only []
          omega

theorem allCount_msgrOff_ne (i : Nat × Nat) (S : MsgrState) (k : MKey)
    (sub : Subscriber) (h : subIdent sub ≠ i) :
    allCount i (msgrOff S k (some sub)).2.1 = allCount i S := by
  unfold msgrOff allCount
  cases k with
  | str s => simp [tableCount_removeSubscriber_ne i S.hasSource S.exact _ sub h]
  | pat p => simp [tableCount_removeSubscriber_ne i S.hasSource S.patterns _ sub h]

theorem allCount_msgrOff_self (i : Nat × Nat) (S : MsgrState) (k : MKey)
    (sub : Subscriber) (hid : subIdent sub = i)
    (hpos : 1 ≤ identCount i (entryAt S k)) :
    allCount i (msgrOff S k (some sub)).2.1 + 1 = allCount i S := by
  unfold msgrOff allCount
  cases k with
  | str s =>
      have := tableCount_removeSubscriber_self i S.hasSource S.exact (.str s) sub hid
        (by simpa [entryAt] using hpos)
      simp only []
      omega
  | pat p =>
      have := tableCount_removeSubscriber_self i S.hasSource S.patterns (.pat p) sub hid
        (by simpa [entryAt] using hpos)
      simp only []
      omega

theorem allCount_callSubscriber_ne (i : Nat × Nat) (S : MsgrState) (sub : Subscriber)
    (k : MKey) (syn : Bool) (h : subIdent sub ≠ i ∨ ¬ dtTruthy sub.dispatchTimes) :
    allCount i (callSubscriber S sub k syn).1 = allCount i S := by
  unfold callSubscriber
  by_cases hdt : dtTruthy sub.dispatchTimes
  · have hne : subIdent sub ≠ i := by
      rcases h with h | h
      · exact h
      · exact absurd hdt h
    by_cases hle : sub.dispatchTimes.getD 0 ≤ 1
    · simp only [hdt, hle, if_true]
      exact allCount_msgrOff_ne i S sub.msgKey sub hne
    · simp only [hdt, hle, if_true, if_false]
      exact allCount_decrementDT i S sub
  · simp [hdt]

theorem allCount_callSubscriber_kill (i : Nat × Nat) (S : MsgrState) (sub : Subscriber)
    (k : MKey) (syn : Bool) (hid : subIdent sub = i) (hdt : dtTruthy sub.dispatchTimes)
    (hle : sub.dispatchTimes.getD 0 ≤ 1)
    (hpos : 1 ≤ identCount i (entryAt S sub.msgKey)) :
    allCount i (callSubscriber S sub k syn).1 + 1 = allCount i S := by
  unfold callSubscriber
  simp only [hdt, hle, if_true]
  exact allCount_msgrOff_self i S sub.msgKey sub hid hpos

/-! ### Presence of an identity at a key is preserved under foreign bookkeeping -/

theorem pres_removeSubscriber_ne (i : Nat × Nat) (hasSource : Bool) (t : Table)
    (k : MKey) (sub : Subscriber) (h : subIdent sub ≠ i)
    (hpos : 1 ≤ identCount i ((lookupTable t k).getD [])) :
    1 ≤ identCount i ((lookupTable (removeSubscriber hasSource t k (some sub)).2.1 k).getD []) := by
  unfold removeSubscriber removeAllSubscribers
  cases hl : lookupTable t k with
  | none => simp [hl, identCount] at hpos
  | some l =>
      rw [hl] at hpos
      simp only [Option.getD_some] at hpos
      have he : ¬ l.isEmpty := by
        intro he
        rw [List.isEmpty_iff] at he
        simp [he, identCount] at hpos
      cases hidx : indexOfSubscriber l sub with
      | none => simpa [he, hidx, hl] using hpos
      | some n =>
          have herase : identCount i (l.eraseIdx n) = identCount i l := by
            have := identCount_eraseIdx_of_indexOf i l sub n hidx
            simp [h] at this
            exact this
          have he' : ¬ (l.eraseIdx n).isEmpty := by
            intro he'
            rw [List.isEmpty_iff] at he'
            rw [he'] at herase
            have hnil : identCount i ([] : List Subscriber) = 0 := rfl
            omega
          simp only [he, hidx, he', Bool.false_eq_true, if_false]
          rw [lookupTable_setTable_self]
          simp only [Option.getD_some]
          omega

theorem pres_entry_callSubscriber (i : Nat × Nat) (S : MsgrState) (sub : Subscriber)
    (k : MKey) (syn : Bool) (key : MKey)
    (hcond : subIdent sub ≠ i ∨ ¬ dtTruthy sub.dispatchTimes)
    (hpos : 1 ≤ identCount i (entryAt S key)) :
    1 ≤ identCount i (entryAt (callSubscriber S sub k syn).1 key) := by
  unfold callSubscriber
  by_cases hdt : dtTruthy sub.dispatchTimes
  · have hne : subIdent sub ≠ i := by
      rcases hcond with h | h
      · exact h
      · exact absurd hdt h
    by_cases hle : sub.dispatchTimes.getD 0 ≤ 1
    · simp only [hdt, hle, if_true]
      by_cases hkey : key = sub.msgKey
      · rw [hkey] at hpos ⊢
        cases hmk : sub.msgKey with
        | str s =>
            rw [hmk] at hpos
            exact pres_removeSubscriber_ne i S.hasSource S.exact (MKey.str s) sub hne hpos
        | pat p =>
            rw [hmk] at hpos
            exact pres_removeSubscriber_ne i S.hasSource S.patterns (MKey.pat p) sub hne hpos
      · rw [msgrOff_entry_stable S sub.msgKey (some sub) key hkey]
        exact hpos
    · simp only [hdt, hle, if_true, if_false]
      rw [entry_identCount_decrementDT]
      exact hpos
  · simpa [hdt] using hpos

theorem pres_entry_callSubscribers (i : Nat × Nat) (S : MsgrState) (k : MKey)
    (subs : List Subscriber) (syn : Bool) (key : MKey)
    (hcond : ∀ r ∈ subs, subIdent r ≠ i ∨ ¬ dtTruthy r.dispatchTimes)
    (hpos : 1 ≤ identCount i (entryAt S key)) :
    1 ≤ identCount i (entryAt (callSubscribers S k subs syn).1 key) := by
  induction subs generalizing S with
  | nil => simpa [callSubscribers] using hpos
  | cons sub rest ih =>
      simp only [callSubscribers]
      exact ih _ (fun r hr => hcond r (List.mem_cons_of_mem _ hr))
        (pres_entry_callSubscriber i S sub k syn key
          (hcond sub (List.mem_cons_self _ _)) hpos)

theorem allCount_callSubscribers_ne (i : Nat × Nat) (S : MsgrState) (k : MKey)
    (subs : List Subscriber) (syn : Bool)
    (hcond : ∀ r ∈ subs, subIdent r ≠ i ∨ ¬ dtTruthy r.dispatchTimes) :
    allCount i (callSubscribers S k subs syn).1 = allCount i S := by
  induction subs generalizing S with
  | nil => simp [callSubscribers]
  | cons sub rest ih =>
      simp only [callSubscribers]
      rw [ih _ (fun r hr => hcond r (List.mem_cons_of_mem _ hr)),
          allCount_callSubscriber_ne i S sub k syn (hcond sub (List.mem_cons_self _ _))]

/-! ### Registration lemmas -/

theorem registerSubscriber_fresh (hasSource : Bool) (t : Table) (k : MKey)
    (sub : Subscriber)
    (h : ∀ r ∈ (lookupTable t k).getD [], subIdent r ≠ subIdent sub) :
    registerSubscriber hasSource t k sub =
      (true, setTable t k ((lookupTable t k).getD [] ++ [sub]),
       if hasSource && ((lookupTable t k).getD []).isEmpty then [Notif.added k] else []) := by
  unfold registerSubscriber
  cases hl : lookupTable t k with
  | none => simp [hl]
  | some l =>
      by_cases he : l.isEmpty
      · rw [List.isEmpty_iff] at he
        subst he
        simp [hl]
      · rw [hl] at h
        simp only [Option.getD_some] at h
        have hidx : indexOfSubscriber l sub = none := by
          rw [indexOfSubscriber_eq_none_iff]
          exact h
        simp [he, hidx, hl]

theorem msgrOn_ret_fresh (S : MsgrState) (k : MKey) (sub : Subscriber)
    (h : ∀ r ∈ entryAt S k, subIdent r ≠ subIdent sub) :
    (msgrOn S k sub).1 = true := by
  unfold msgrOn
  cases k with
  | str s =>
      dsimp only
      rw [registerSubscriber_fresh S.hasSource S.exact (.str s) _ (by simpa [entryAt] using h)]
  | pat p =>
      dsimp only
      rw [registerSubscriber_fresh S.hasSource S.patterns (.pat p) _ (by simpa [entryAt] using h)]

theorem msgrOn_entry_fresh (S : MsgrState) (k : MKey) (sub : Subscriber)
    (h : ∀ r ∈ entryAt S k, subIdent r ≠ subIdent sub) :
    entryAt (msgrOn S k sub).2.1 k = entryAt S k ++ [{ sub with msgKey := k }] := by
  unfold msgrOn
  cases k with
  | str s =>
      dsimp only
      rw [registerSubscriber_fresh S.hasSource S.exact (.str s) _ (by simpa [entryAt] using h)]
      simp [entryAt, lookupTable_setTable_self]
  | pat p =>
      dsimp only
      rw [registerSubscriber_fresh S.hasSource S.patterns (.pat p) _ (by simpa [entryAt] using h)]
      simp [entryAt, lookupTable_setTable_self]

theorem msgrOn_str_patterns (S : MsgrState) (s : String) (sub : Subscriber) :
    (msgrOn S (.str s) sub).2.1.patterns = S.patterns := rfl

theorem allCount_msgrOn_fresh (i : Nat × Nat) (S : MsgrState) (k : MKey)
    (sub : Subscriber)
    (h : ∀ r ∈ entryAt S k, subIdent r ≠ subIdent sub) (hid : subIdent sub = i) :
    allCount i (msgrOn S k sub).2.1 = allCount i S + 1 := by
  have hone : identCount i [{ sub with msgKey := k }] = 1 := by
    have hid' : subIdent { sub with msgKey := k } = i := hid
    simp [identCount, List.countP_cons, hid']
  unfold msgrOn
  cases k with
  | str s =>
      dsimp only
      rw [registerSubscriber_fresh S.hasSource S.exact (.str s) _ (by simpa [entryAt] using h)]
      unfold allCount
      simp only []
      cases hl : lookupTable S.exact (.str s) with
      | none =>
          rw [tableCount_setTable_none i S.exact (.str s) _ hl]
          simp [hl, identCount_append, hone]
          omega
      | some l =>
          have := tableCount_setTable_some i S.exact (.str s) l (l ++ [{ sub with msgKey := .str s }]) hl
          rw [identCount_append, hone] at this
          simp [hl]
          omega
  | pat p =>
      dsimp only
      rw [registerSubscriber_fresh S.hasSource S.patterns (.pat p) _ (by simpa [entryAt] using h)]
      unfold allCount
      simp only []
      cases hl : lookupTable S.patterns (.pat p) with
      | none =>
          rw [tableCount_setTable_none i S.patterns (.pat p) _ hl]
          simp [hl, identCount_append, hone]
          omega
      | some l =>
          have := tableCount_setTable_some i S.patterns (.pat p) l (l ++ [{ sub with msgKey := .pat p }]) hl
          rw [identCount_append, hone] at this
          simp [hl]
          omega

theorem msgrOn_duplicate (S : MsgrState) (k : MKey) (sub : Subscriber)
    (h : 1 ≤ identCount (subIdent sub) (entryAt S k)) :
    msgrOn S k sub = (false, S, []) := by
  have hsame : subIdent { sub with msgKey := k } = subIdent sub := rfl
  unfold msgrOn
  cases k with
  | str s =>
      dsimp only
      unfold registerSubscriber
      cases hl : lookupTable S.exact (.str s) with
      | none => simp [entryAt, hl, identCount] at h
      | some l =>
          have hpos : 1 ≤ identCount (subIdent sub) l := by
            simpa [entryAt, hl] using h
          have he : ¬ l.isEmpty := by
            intro he
            rw [List.isEmpty_iff] at he
            simp [he, identCount] at hpos
          obtain ⟨n, hidx⟩ := indexOfSubscriber_isSome_of_count l { sub with msgKey := .str s }
            (by rw [hsame]; exact hpos)
          simp [he, hidx]
  | pat p =>
      dsimp only
      unfold registerSubscriber
      cases hl : lookupTable S.patterns (.pat p) with
      | none => simp [entryAt, hl, identCount] at h
      | some l =>
          have hpos : 1 ≤ identCount (subIdent sub) l := by
            simpa [entryAt, hl] using h
          have he : ¬ l.isEmpty := by
            intro he
            rw [List.isEmpty_iff] at he
            simp [he, identCount] at hpos
          obtain ⟨n, hidx⟩ := indexOfSubscriber_isSome_of_count l { sub with msgKey := .pat p }
            (by rw [hsame]; exact hpos)
          simp [he, hidx]

theorem entryAt_str (S : MsgrState) (s : String) :
    entryAt S (.str s) = (lookupTable S.exact (.str s)).getD [] := rfl

theorem entryAt_pat (S : MsgrState) (p : String) :
    entryAt S (.pat p) = (lookupTable S.patterns (.pat p)).getD [] := rfl

theorem entry_count_of_absent (i : Nat × Nat) (S : MsgrState) (k : MKey)
    (h : absentEv i S) : identCount i (entryAt S k) = 0 := by
  cases k with
  | str s =>
      rw [entryAt_str]
      cases hl : lookupTable S.exact (.str s) with
      | none => rfl
      | some l => simpa using identCount_lookup_of_absent i S.exact _ l h.1 hl
  | pat p =>
      rw [entryAt_pat]
      cases hl : lookupTable S.patterns (.pat p) with
      | none => rfl
      | some l => simpa using identCount_lookup_of_absent i S.patterns _ l h.2 hl

/-! ### Claim C5 -/

/-- C5: for a string message and a subscriber identified by the
(callback, context) pair: after a first `on` that returns `true`, a second
`on` with the same identity returns `false` and leaves the messenger state
unchanged, and a subsequent dispatch of the message invokes the subscriber
once, not twice (the exact delivery invokes it once and the pattern phase
excludes its identity). Stated for an identity not yet registered anywhere
in the messenger. -/
theorem claim_duplicate_subscribe_noop (ptest : String → String → Bool)
    (S : MsgrState) (s : String) (fn ctx : Nat) (syn : Bool)
    (habs : absentEv (fn, ctx) S) :
    (msgrOnFn S (.str s) fn ctx).1 = true ∧
    (msgrOnFn (msgrOnFn S (.str s) fn ctx).2.1 (.str s) fn ctx).1 = false ∧
    (msgrOnFn (msgrOnFn S (.str s) fn ctx).2.1 (.str s) fn ctx).2.1
      = (msgrOnFn S (.str s) fn ctx).2.1 ∧
    invCount (fn, ctx)
      (postMessage ptest (msgrOnFn S (.str s) fn ctx).2.1 (.str s) syn).2 = 1 := by
  have h0 := entry_count_of_absent (fn, ctx) S (.str s) habs
  have hfresh : ∀ r ∈ entryAt S (.str s), subIdent r ≠ (fn, ctx) :=
    (identCount_eq_zero _ _).mp h0
  have hfresh' : ∀ r ∈ entryAt S (.str s),
      subIdent r ≠ subIdent (⟨fn, ctx, none, none, .str s⟩ : Subscriber) := hfresh
  unfold msgrOnFn
  have hret := msgrOn_ret_fresh S (.str s) ⟨fn, ctx, none, none, .str s⟩ hfresh'
  have hentry := msgrOn_entry_fresh S (.str s) ⟨fn, ctx, none, none, .str s⟩ hfresh'
  have hrec : ({ (⟨fn, ctx, none, none, .str s⟩ : Subscriber) with msgKey := MKey.str s })
      = (⟨fn, ctx, none, none, .str s⟩ : Subscriber) := rfl
  rw [hrec] at hentry
  have hcount1 : identCount (fn, ctx)
      (entryAt (msgrOn S (.str s) ⟨fn, ctx, none, none, .str s⟩).2.1 (.str s)) = 1 := by
    rw [hentry, identCount_append, h0]
    simp [identCount, List.countP_cons, subIdent]
  have hdup := msgrOn_duplicate (msgrOn S (.str s) ⟨fn, ctx, none, none, .str s⟩).2.1
    (.str s) ⟨fn, ctx, none, none, .str s⟩ (le_of_eq hcount1.symm)
  refine ⟨hret, by rw [hdup], by rw [hdup], ?_⟩
  have hexact0 : (lookupTable (msgrOn S (.str s) ⟨fn, ctx, none, none, .str s⟩).2.1.exact
      (MKey.str s)).getD []
      = entryAt (msgrOn S (.str s) ⟨fn, ctx, none, none, .str s⟩).2.1 (MKey.str s) := rfl
  unfold postMessage
  dsimp only
  have h1 : invCount (fn, ctx) (callSubscribers
      (msgrOn S (.str s) ⟨fn, ctx, none, none, .str s⟩).2.1 (MKey.str s)
      ((lookupTable (msgrOn S (.str s) ⟨fn, ctx, none, none, .str s⟩).2.1.exact
        (MKey.str s)).getD []) syn).2 = 1 := by
    rw [invCount_callSubscribers, hexact0, hcount1]
  have hcond : ∀ r ∈ (lookupTable (msgrOn S (.str s) ⟨fn, ctx, none, none, .str s⟩).2.1.exact
      (MKey.str s)).getD [],
      subIdent r ≠ (fn, ctx) ∨ ¬ dtTruthy r.dispatchTimes := by
    rw [hexact0, hentry]
    intro r hr
    rcases List.mem_append.mp hr with hr | hr
    · exact Or.inl (hfresh r hr)
    · rw [List.mem_singleton] at hr
      subst hr
      right
      simp [dtTruthy]
  have hpres := pres_entry_callSubscribers (fn, ctx)
    (msgrOn S (.str s) ⟨fn, ctx, none, none, .str s⟩).2.1 (MKey.str s)
    ((lookupTable (msgrOn S (.str s) ⟨fn, ctx, none, none, .str s⟩).2.1.exact
      (MKey.str s)).getD []) syn (MKey.str s) hcond (le_of_eq hcount1.symm)
  have h2 := callPatternSubscribers_dedup (fn, ctx) ptest
    (callSubscribers (msgrOn S (.str s) ⟨fn, ctx, none, none, .str s⟩).2.1 (MKey.str s)
      ((lookupTable (msgrOn S (.str s) ⟨fn, ctx, none, none, .str s⟩).2.1.exact
        (MKey.str s)).getD []) syn).1 s
    ((lookupTable (callSubscribers (msgrOn S (.str s) ⟨fn, ctx, none, none, .str s⟩).2.1
        (MKey.str s)
        ((lookupTable (msgrOn S (.str s) ⟨fn, ctx, none, none, .str s⟩).2.1.exact
          (MKey.str s)).getD []) syn).1.exact (MKey.str s)).getD []) syn
    ((callSubscribers (msgrOn S (.str s) ⟨fn, ctx, none, none, .str s⟩).2.1 (MKey.str s)
      ((lookupTable (msgrOn S (.str s) ⟨fn, ctx, none, none, .str s⟩).2.1.exact
        (MKey.str s)).getD []) syn).1.patterns.map Prod.fst) hpres
  unfold invCount at h1 h2 ⊢
  rw [List.countP_append]
  omega

/-- Closed witness for C5 at a concrete messenger and identity. -/
theorem claim_duplicate_subscribe_noop_witness :
    absentEv (7, 0) emptyMsgr ∧
    ((msgrOnFn emptyMsgr (.str "m") 7 0).1 = true ∧
     (msgrOnFn (msgrOnFn emptyMsgr (.str "m") 7 0).2.1 (.str "m") 7 0).1 = false ∧
     (msgrOnFn (msgrOnFn emptyMsgr (.str "m") 7 0).2.1 (.str "m") 7 0).2.1
       = (msgrOnFn emptyMsgr (.str "m") 7 0).2.1 ∧
     invCount (7, 0)
       (postMessage ptEq (msgrOnFn emptyMsgr (.str "m") 7 0).2.1 (.str "m") false).2 = 1) :=
  ⟨by constructor <;> intro kv hkv <;> simp [emptyMsgr] at hkv,
   claim_duplicate_subscribe_noop ptEq emptyMsgr "m" 7 0 false
     (by constructor <;> intro kv hkv <;> simp [emptyMsgr] at hkv)⟩

/-! ### Claim C7 -/

/-- C7: a subscriber registered via `once` (dispatch limit 1) for a string
message is invoked exactly once over the whole subsequent run: the first
dispatch of the message invokes it once and removes the registration, and no
later dispatch — of that message or any other — invokes it again. Stated for
an identity not yet registered anywhere in the messenger. -/
theorem claim_once_single_invocation (ptest : String → String → Bool)
    (S : MsgrState) (m : String) (fn ctx : Nat) (syn : Bool)
    (rest : List (MKey × Bool)) (habs : absentEv (fn, ctx) S) :
    invCount (fn, ctx)
      (runPost ptest (msgrOnce S (.str m) fn ctx).2.1 ((.str m, syn) :: rest)).2 = 1 := by
  have h0 := entry_count_of_absent (fn, ctx) S (.str m) habs
  have hfresh : ∀ r ∈ entryAt S (.str m), subIdent r ≠ (fn, ctx) :=
    (identCount_eq_zero _ _).mp h0
  have hfresh' : ∀ r ∈ entryAt S (.str m),
      subIdent r ≠ subIdent (⟨fn, ctx, none, some 1, .str m⟩ : Subscriber) := hfresh
  unfold msgrOnce
  have hentry := msgrOn_entry_fresh S (.str m) ⟨fn, ctx, none, some 1, .str m⟩ hfresh'
  have hrec : ({ (⟨fn, ctx, none, some 1, .str m⟩ : Subscriber) with msgKey := MKey.str m })
      = (⟨fn, ctx, none, some 1, .str m⟩ : Subscriber) := rfl
  rw [hrec] at hentry
  have hcount1 : identCount (fn, ctx)
      (entryAt (msgrOn S (.str m) ⟨fn, ctx, none, some 1, .str m⟩).2.1 (.str m)) = 1 := by
    rw [hentry, identCount_append, h0]
    simp [identCount, List.countP_cons, subIdent]
  have hall1 : allCount (fn, ctx) (msgrOn S (.str m) ⟨fn, ctx, none, some 1, .str m⟩).2.1 = 1 := by
    rw [allCount_msgrOn_fresh (fn, ctx) S (.str m) ⟨fn, ctx, none, some 1, .str m⟩ hfresh' rfl,
        (allCount_eq_zero_iff (fn, ctx) S).mpr habs]
  -- the exact-phase snapshot and its two parts
  have hexact0 : (lookupTable (msgrOn S (.str m) ⟨fn, ctx, none, some 1, .str m⟩).2.1.exact
      (MKey.str m)).getD []
      = entryAt S (.str m) ++ [(⟨fn, ctx, none, some 1, .str m⟩ : Subscriber)] := hentry
  -- state after delivering the part before the once-record
  have hpresA := pres_entry_callSubscribers (fn, ctx)
    (msgrOn S (.str m) ⟨fn, ctx, none, some 1, .str m⟩).2.1 (MKey.str m)
    (entryAt S (.str m)) syn (MKey.str m)
    (fun r hr => Or.inl (hfresh r hr)) (le_of_eq hcount1.symm)
  have hallA : allCount (fn, ctx) (callSubscribers
      (msgrOn S (.str m) ⟨fn, ctx, none, some 1, .str m⟩).2.1 (MKey.str m)
      (entryAt S (.str m)) syn).1 = 1 := by
    rw [allCount_callSubscribers_ne (fn, ctx) _ (MKey.str m) _ syn
      (fun r hr => Or.inl (hfresh r hr))]
    exact hall1
  -- the once-record's own delivery removes the only record of the identity
  have hkill := allCount_callSubscriber_kill (fn, ctx)
    (callSubscribers (msgrOn S (.str m) ⟨fn, ctx, none, some 1, .str m⟩).2.1 (MKey.str m)
      (entryAt S (.str m)) syn).1
    ⟨fn, ctx, none, some 1, .str m⟩ (MKey.str m) syn rfl rfl (by simp) hpresA
  have habsB : absentEv (fn, ctx) (callSubscribers
      (callSubscribers (msgrOn S (.str m) ⟨fn, ctx, none, some 1, .str m⟩).2.1 (MKey.str m)
        (entryAt S (.str m)) syn).1 (MKey.str m)
      [(⟨fn, ctx, none, some 1, .str m⟩ : Subscriber)] syn).1 := by
    rw [← allCount_eq_zero_iff]
    simp only [callSubscribers]
    omega
  -- assemble the first dispatch
  unfold runPost
  dsimp only
  unfold postMessage
  dsimp only
  rw [hexact0]
  rw [callSubscribers_append]
  dsimp only
  have habsPat := callPatternSubscribers_absent (fn, ctx) ptest _ m
    ((lookupTable (callSubscribers
        (callSubscribers (msgrOn S (.str m) ⟨fn, ctx, none, some 1, .str m⟩).2.1 (MKey.str m)
          (entryAt S (.str m)) syn).1 (MKey.str m)
        [(⟨fn, ctx, none, some 1, .str m⟩ : Subscriber)] syn).1.exact (MKey.str m)).getD [])
    syn
    ((callSubscribers
        (callSubscribers (msgrOn S (.str m) ⟨fn, ctx, none, some 1, .str m⟩).2.1 (MKey.str m)
          (entryAt S (.str m)) syn).1 (MKey.str m)
        [(⟨fn, ctx, none, some 1, .str m⟩ : Subscriber)] syn).1.patterns.map Prod.fst)
    habsB
  have hrest := runPost_absent (fn, ctx) ptest _ rest habsPat.2
  -- count the pieces
  have hx1 : invCount (fn, ctx) (callSubscribers
      (msgrOn S (.str m) ⟨fn, ctx, none, some 1, .str m⟩).2.1 (MKey.str m)
      (entryAt S (.str m)) syn).2 = 0 := by
    rw [invCount_callSubscribers]
    exact h0
  have hx2 : invCount (fn, ctx) (callSubscribers
      (callSubscribers (msgrOn S (.str m) ⟨fn, ctx, none, some 1, .str m⟩).2.1 (MKey.str m)
        (entryAt S (.str m)) syn).1 (MKey.str m)
      [(⟨fn, ctx, none, some 1, .str m⟩ : Subscriber)] syn).2 = 1 := by
    rw [invCount_callSubscribers]
    simp [identCount, List.countP_cons, subIdent]
  unfold invCount at hx1 hx2 habsPat hrest ⊢
  rw [List.countP_append, List.countP_append, List.countP_append]
  omega

/-- Closed witness for C7 at a concrete messenger and a two-dispatch run. -/
theorem claim_once_single_invocation_witness :
    absentEv (1, 0) emptyMsgr ∧
    invCount (1, 0)
      (runPost ptEq (msgrOnce emptyMsgr (.str "m") 1 0).2.1
        ((.str "m", false) :: [(.str "m", false)])).2 = 1 :=
  ⟨by constructor <;> intro kv hkv <;> simp [emptyMsgr] at hkv,
   claim_once_single_invocation ptEq emptyMsgr "m" 1 0 false [(.str "m", false)]
     (by constructor <;> intro kv hkv <;> simp [emptyMsgr] at hkv)⟩

/-! ### Claim C4 -/

/-- C4 counterexample: on a messenger with an attached message source,
registering the first pattern (RegExp) subscriber does invoke the source's
`onSubscriberAdded` with the pattern — `_registerSubscriber` has no
string-type guard — so the claim's "never invokes" is false at this input. -/
theorem claim_pattern_source_notification_cex :
    (msgrOn emptyMsgr (.pat "ab") ⟨1, 0, none, none, .pat "ab"⟩).2.2
      = [Notif.added (.pat "ab")] := by decide

theorem removeSubscriber_notifs_pat (hasSource : Bool) (t : Table) (p : String)
    (sub? : Option Subscriber) :
    (removeSubscriber hasSource t (.pat p) sub? ).2.2 = [] := by
  unfold removeSubscriber removeAllSubscribers
  cases hl : lookupTable t (.pat p) with
  | none => rfl
  | some l =>
      by_cases he : l.isEmpty
      · simp [he]
      · cases sub? with
        | none => simp [he, MKey.isStr]
        | some sub =>
            cases hidx : indexOfSubscriber l sub with
            | none => simp [he, hidx]
            | some n =>
                by_cases he' : (l.eraseIdx n).isEmpty
                · simp [he, hidx, he', MKey.isStr]
                · simp [he, hidx, he']

theorem registerSubscriber_notifs (hasSource : Bool) (t : Table) (k : MKey)
    (sub : Subscriber) :
    (registerSubscriber hasSource t k sub).2.2
      = if hasSource = true ∧ (lookupTable t k).getD [] = [] then [Notif.added k]
        else [] := by
  unfold registerSubscriber
  cases hl : lookupTable t k with
  | none =>
      by_cases hs : hasSource = true
      · simp [hs]
      · simp [hs]
  | some l =>
      by_cases he : l.isEmpty
      · rw [List.isEmpty_iff] at he
        subst he
        by_cases hs : hasSource = true
        · simp [hs]
        · simp [hs]
      · have hne : l ≠ [] := by
          intro hh
          rw [hh] at he
          simp at he
        cases hidx : indexOfSubscriber l sub with
        | none => simp [List.isEmpty_iff, hne, hidx]
        | some n => simp [List.isEmpty_iff, hne, hidx]

theorem removeSubscriber_notifs_str (hasSource : Bool) (t : Table) (s : String)
    (sub? : Option Subscriber) (hnd : tableKeysNodup t) :
    (removeSubscriber hasSource t (.str s) sub? ).2.2
      = if hasSource = true ∧ (removeSubscriber hasSource t (.str s) sub? ).1 = true
           ∧ lookupTable (removeSubscriber hasSource t (.str s) sub? ).2.1 (.str s) = none
        then [Notif.removed (.str s)] else [] := by
  unfold removeSubscriber removeAllSubscribers
  cases hl : lookupTable t (.str s) with
  | none => simp
  | some l =>
      by_cases he : l.isEmpty
      · simp [he]
      · cases sub? with
        | none =>
            have hdel : lookupTable (deleteTable t (.str s)) (.str s) = none :=
              lookupTable_deleteTable_self t (.str s) hnd
            by_cases hs : hasSource = true
            · simp [he, hs, MKey.isStr, hdel]
            · simp [he, hs, MKey.isStr, hdel]
        | some sub =>
            cases hidx : indexOfSubscriber l sub with
            | none => simp [he, hidx]
            | some n =>
                by_cases he' : (l.eraseIdx n).isEmpty
                · have hdel : lookupTable
                      (deleteTable (setTable t (.str s) (l.eraseIdx n)) (.str s)) (.str s) = none :=
                    lookupTable_deleteTable_self _ (.str s)
                      (tableKeysNodup_setTable t (.str s) _ hnd)
                  by_cases hs : hasSource = true
                  · simp [he, hidx, he', hs, MKey.isStr, hdel]
                  · simp [he, hidx, he', hs, MKey.isStr, hdel]
                · have hset : lookupTable (setTable t (.str s) (l.eraseIdx n)) (.str s)
                      = some (l.eraseIdx n) := lookupTable_setTable_self t (.str s) _
                  have hne' : l.eraseIdx n ≠ [] := by
                    intro hh
                    rw [hh] at he'
                    simp at he'
                  simp [he, hidx, he', hset, hne']

/-- C4 (amended): removing pattern subscribers never notifies the message
source (the string-type guard sits on the removal path only), and for exact
string messages the source is notified exactly when the first subscriber is
registered and when the last one is removed; registering a pattern subscriber,
however, does notify `onSubscriberAdded(pattern)` exactly when it is the
first subscriber for that pattern — the registration path has no string-type
guard. -/
theorem claim_source_notification_amended (S : MsgrState) (p s : String)
    (sub : Subscriber) (sub? : Option Subscriber)
    (hnd : tableKeysNodup S.exact) :
    (msgrOff S (.pat p) sub? ).2.2 = [] ∧
    (msgrOn S (.pat p) sub).2.2
      = (if S.hasSource = true ∧ entryAt S (.pat p) = [] then [Notif.added (.pat p)]
         else []) ∧
    (msgrOn S (.str s) sub).2.2
      = (if S.hasSource = true ∧ entryAt S (.str s) = [] then [Notif.added (.str s)]
         else []) ∧
    (msgrOff S (.str s) sub? ).2.2
      = (if S.hasSource = true ∧ (msgrOff S (.str s) sub? ).1 = true
            ∧ lookupTable (msgrOff S (.str s) sub? ).2.1.exact (.str s) = none
         then [Notif.removed (.str s)] else []) := by
  refine ⟨?_, ?_, ?_, ?_⟩
  · unfold msgrOff
    dsimp only
    exact removeSubscriber_notifs_pat S.hasSource S.patterns p sub?
  · unfold msgrOn
    dsimp only
    rw [registerSubscriber_notifs S.hasSource S.patterns (.pat p) _]
    rfl
  · unfold msgrOn
    dsimp only
    rw [registerSubscriber_notifs S.hasSource S.exact (.str s) _]
    rfl
  · unfold msgrOff
    dsimp only
    exact removeSubscriber_notifs_str S.hasSource S.exact s sub? hnd

/-- Closed witness for the amended C4 on a concrete messenger. -/
theorem claim_source_notification_amended_witness :
    tableKeysNodup emptyMsgr.exact ∧
    ((msgrOff emptyMsgr (.pat "p") none).2.2 = [] ∧
     (msgrOn emptyMsgr (.pat "p") ⟨1, 0, none, none, .pat "p"⟩).2.2
       = (if emptyMsgr.hasSource = true ∧ entryAt emptyMsgr (.pat "p") = []
          then [Notif.added (.pat "p")] else []) ∧
     (msgrOn emptyMsgr (.str "s") ⟨1, 0, none, none, .str "s"⟩).2.2
       = (if emptyMsgr.hasSource = true ∧ entryAt emptyMsgr (.str "s") = []
          then [Notif.added (.str "s")] else []) ∧
     (msgrOff emptyMsgr (.str "s") none).2.2
       = (if emptyMsgr.hasSource = true ∧ (msgrOff emptyMsgr (.str "s") none).1 = true
             ∧ lookupTable (msgrOff emptyMsgr (.str "s") none).2.1.exact (.str "s") = none
          then [Notif.removed (.str "s")] else [])) :=
  ⟨by simp [emptyMsgr, tableKeysNodup],
   claim_source_notification_amended emptyMsgr "p" "s" ⟨1, 0, none, none, .pat "p"⟩ none
     (by simp [emptyMsgr, tableKeysNodup])⟩

/-! ### Claim C6 -/

theorem callSubscriber_patterns_total_stable (S : MsgrState) (sub : Subscriber)
    (k : MKey) (syn : Bool) (h : sub.msgKey.isStr = true) :
    (callSubscriber S sub k syn).1.patterns = S.patterns := by
  unfold callSubscriber
  by_cases hdt : dtTruthy sub.dispatchTimes
  · by_cases hle : sub.dispatchTimes.getD 0 ≤ 1
    · simp only [hdt, hle, if_true]
      unfold msgrOff
      cases hmk : sub.msgKey with
      | str s => rfl
      | pat p => rw [hmk] at h; simp [MKey.isStr] at h
    · simp only [hdt, hle, if_true, if_false]
      unfold decrementDT
      cases hmk : sub.msgKey with
      | str s => cases lookupTable S.exact (MKey.str s) <;> rfl
      | pat p => rw [hmk] at h; simp [MKey.isStr] at h
  · simp [hdt]

theorem callSubscribers_patterns_total_stable (S : MsgrState) (k : MKey)
    (subs : List Subscriber) (syn : Bool)
    (h : ∀ r ∈ subs, r.msgKey.isStr = true) :
    (callSubscribers S k subs syn).1.patterns = S.patterns := by
  induction subs generalizing S with
  | nil => simp [callSubscribers]
  | cons sub rest ih =>
      simp only [callSubscribers]
      rw [ih _ (fun r hr => h r (List.mem_cons_of_mem _ hr)),
          callSubscriber_patterns_total_stable S sub k syn (h sub (List.mem_cons_self _ _))]

theorem callSubscriber_patterns_lookup_ne (S : MsgrState) (sub : Subscriber)
    (k : MKey) (syn : Bool) (k' : MKey) (h : k' ≠ sub.msgKey) :
    lookupTable (callSubscriber S sub k syn).1.patterns k'
      = lookupTable S.patterns k' := by
  unfold callSubscriber
  by_cases hdt : dtTruthy sub.dispatchTimes
  · by_cases hle : sub.dispatchTimes.getD 0 ≤ 1
    · simp only [hdt, hle, if_true]
      unfold msgrOff
      cases hmk : sub.msgKey with
      | str s => rfl
      | pat p =>
          rw [hmk] at h
          exact removeSubscriber_lookup_ne S.hasSource S.patterns (.pat p) (some sub) k' h
    · simp only [hdt, hle, if_true, if_false]
      unfold decrementDT
      cases hmk : sub.msgKey with
      | str s => cases lookupTable S.exact (.str s) <;> rfl
      | pat p =>
          rw [hmk] at h
          cases hl : lookupTable S.patterns (.pat p) with
          | none => rfl
          | some l => simp [lookupTable_setTable_ne _ _ _ _ h]
  · simp [hdt]

theorem callSubscribers_patterns_lookup_ne (S : MsgrState) (k : MKey)
    (subs : List Subscriber) (syn : Bool) (k' : MKey)
    (h : ∀ r ∈ subs, k' ≠ r.msgKey) :
    lookupTable (callSubscribers S k subs syn).1.patterns k'
      = lookupTable S.patterns k' := by
  induction subs generalizing S with
  | nil => simp [callSubscribers]
  | cons sub rest ih =>
      simp only [callSubscribers]
      rw [ih _ (fun r hr => h r (List.mem_cons_of_mem _ hr)),
          callSubscriber_patterns_lookup_ne S sub k syn k' (h sub (List.mem_cons_self _ _))]

theorem callPatternSubscribers_stable (ptest : String → String → Bool) (s : String)
    (called : List Subscriber) (syn : Bool) (T : Table) (keys : List MKey)
    (S' : MsgrState) (hnd : keys.Nodup)
    (hagree : ∀ k ∈ keys, lookupTable S'.patterns k = lookupTable T k)
    (hwf : ∀ k ∈ keys, ∀ r ∈ (lookupTable T k).getD [], r.msgKey = k) :
    (callPatternSubscribers ptest S' s called syn keys).2
      = patternInvsKeys ptest s called syn T keys := by
  induction keys generalizing S' with
  | nil => simp [callPatternSubscribers, patternInvsKeys]
  | cons key rest ih =>
      rw [List.nodup_cons] at hnd
      cases key with
      | str s' =>
          simp only [callPatternSubscribers, patternInvsKeys]
          exact ih _ hnd.2 (fun k hk => hagree k (List.mem_cons_of_mem _ hk))
            (fun k hk => hwf k (List.mem_cons_of_mem _ hk))
      | pat p =>
          by_cases hp : ptest p s
          · simp only [callPatternSubscribers, patternInvsKeys, hp, if_true]
            rw [hagree (.pat p) (List.mem_cons_self _ _)]
            congr 1
            · exact callSubscribers_invs _ _ _ _
            · apply ih
              · exact hnd.2
              · intro k hk
                rw [callSubscribers_patterns_lookup_ne]
                · exact hagree k (List.mem_cons_of_mem _ hk)
                · intro r hr
                  have hr' := List.mem_of_mem_filter hr
                  have := hwf (.pat p) (List.mem_cons_self _ _) r hr'
                  rw [this]
                  intro hh
                  rw [hh] at hk
                  exact hnd.1 hk
              · intro k hk
                exact hwf k (List.mem_cons_of_mem _ hk)
          · simp only [callPatternSubscribers, patternInvsKeys, hp, Bool.false_eq_true,
              if_false]
            exact ih _ hnd.2 (fun k hk => hagree k (List.mem_cons_of_mem _ hk))
              (fun k hk => hwf k (List.mem_cons_of_mem _ hk))

theorem patternInvsKeys_congr (ptest : String → String → Bool) (s : String)
    (called : List Subscriber) (syn : Bool) (T T' : Table) (keys : List MKey)
    (h : ∀ k ∈ keys, lookupTable T k = lookupTable T' k) :
    patternInvsKeys ptest s called syn T keys
      = patternInvsKeys ptest s called syn T' keys := by
  induction keys with
  | nil => rfl
  | cons key rest ih =>
      cases key with
      | str s' =>
          simp only [patternInvsKeys]
          exact ih (fun k hk => h k (List.mem_cons_of_mem _ hk))
      | pat p =>
          simp only [patternInvsKeys]
          rw [h (.pat p) (List.mem_cons_self _ _),
            ih (fun k hk => h k (List.mem_cons_of_mem _ hk))]

theorem patternInvsKeys_eq_patternInvs (ptest : String → String → Bool) (s : String)
    (called : List Subscriber) (syn : Bool) (T : Table) (hnd : tableKeysNodup T) :
    patternInvsKeys ptest s called syn T (T.map Prod.fst)
      = patternInvs ptest s called syn T := by
  induction T with
  | nil => rfl
  | cons kv rest ih =>
      obtain ⟨k₀, v₀⟩ := kv
      unfold tableKeysNodup at hnd ih
      rw [List.map_cons, List.nodup_cons] at hnd
      have hlook : lookupTable ((k₀, v₀) :: rest) k₀ = some v₀ := by
        simp [lookupTable]
      have hagree : ∀ k ∈ rest.map Prod.fst,
          lookupTable ((k₀, v₀) :: rest) k = lookupTable rest k := by
        intro k hk
        have : k₀ ≠ k := by
          intro hh
          rw [hh] at hnd
          exact hnd.1 hk
        simp [lookupTable, this]
      cases k₀ with
      | str s' =>
          simp only [List.map_cons, patternInvsKeys, patternInvs]
          rw [patternInvsKeys_congr ptest s called syn _ rest _ hagree, ih hnd.2]
      | pat p =>
          simp only [List.map_cons, patternInvsKeys, patternInvs]
          rw [hlook, patternInvsKeys_congr ptest s called syn _ rest _ hagree, ih hnd.2]
          rfl

/-- C6 counterexample: with a one-shot exact subscriber for `"m"` and a
pattern subscriber of the same identity matching `"m"`, the dispatch of
`"m"` differs from the claim's description: the local alias of the exact
subscriber array has been spliced by the one-shot's self-removal before the
pattern phase runs, so the pattern subscriber is NOT excluded and the same
identity is invoked twice. -/
theorem claim_dispatch_dedup_cex :
    (postMessage ptEq onceAndPatMsgr (.str "m") false).2
      ≠ postMessageClaimed ptEq onceAndPatMsgr (.str "m") false := by decide

/-- C6 (amended): dispatching a string message invokes the exact-message
subscribers in order, then every matching pattern entry's subscribers in
table order — excluding those whose identity occurs among the subscribers
STILL registered for the exact message after the exact delivery phase (for
subscribers without a dispatch limit this is the same as the already-invoked
exact subscribers, but a one-shot exact subscriber has already been spliced
out of the aliased array and is not excluded); dispatching a RegExp message
invokes exactly the subscribers registered under that pattern, with no
matching against other patterns. Stated for a well-formed messenger (unique
pattern-hash keys, correctly stamped registration keys). -/
theorem claim_dispatch_exact_then_patterns_amended (ptest : String → String → Bool)
    (S : MsgrState) (s p : String) (syn : Bool)
    (hnd : tableKeysNodup S.patterns)
    (hwfex : ∀ r ∈ (lookupTable S.exact (.str s)).getD [], r.msgKey = .str s)
    (hwfpat : ∀ kv ∈ S.patterns, ∀ r ∈ kv.2, r.msgKey = kv.1) :
    (postMessage ptest S (.str s) syn).2
      = ((lookupTable S.exact (.str s)).getD []).map (mkInv (.str s) syn)
        ++ patternInvs ptest s
             ((lookupTable (callSubscribers S (.str s)
                 ((lookupTable S.exact (.str s)).getD []) syn).1.exact (.str s)).getD [])
             syn S.patterns
    ∧ (postMessage ptest S (.pat p) syn).2
      = ((lookupTable S.patterns (.pat p)).getD []).map (mkInv (.pat p) syn) := by
  constructor
  · unfold postMessage
    dsimp only
    have hstable : (callSubscribers S (.str s)
        ((lookupTable S.exact (.str s)).getD []) syn).1.patterns = S.patterns := by
      apply callSubscribers_patterns_total_stable
      intro r hr
      rw [hwfex r hr]
      rfl
    congr 1
    · exact callSubscribers_invs _ _ _ _
    · rw [hstable]
      rw [callPatternSubscribers_stable ptest s _ syn S.patterns _ _ hnd
        (fun k _ => by rw [hstable]) ?hwfkeys]
      · exact patternInvsKeys_eq_patternInvs ptest s _ syn S.patterns hnd
      case hwfkeys =>
        intro k hk r hr
        rcases List.mem_map.mp hk with ⟨kv, hkv, hfst⟩
        subst hfst
        have := lookupTable_of_mem_nodup S.patterns kv.1 kv.2 hnd ?_
        · rw [this] at hr
          simp only [Option.getD_some] at hr
          exact hwfpat kv hkv r hr
        · exact (by rcases kv with ⟨a, b⟩; exact hkv)
  · unfold postMessage
    dsimp only
    exact callSubscribers_invs _ _ _ _

/-- Closed witness for the amended C6 at the counterexample state. -/
theorem claim_dispatch_exact_then_patterns_amended_witness :
    (tableKeysNodup onceAndPatMsgr.patterns ∧
     (∀ r ∈ (lookupTable onceAndPatMsgr.exact (.str "m")).getD [], r.msgKey = MKey.str "m") ∧
     (∀ kv ∈ onceAndPatMsgr.patterns, ∀ r ∈ kv.2, r.msgKey = kv.1)) ∧
    (postMessage ptEq onceAndPatMsgr (.str "m") false).2
      = ((lookupTable onceAndPatMsgr.exact (.str "m")).getD []).map (mkInv (.str "m") false)
        ++ patternInvs ptEq "m"
             ((lookupTable (callSubscribers onceAndPatMsgr (.str "m")
                 ((lookupTable onceAndPatMsgr.exact (.str "m")).getD []) false).1.exact
               (.str "m")).getD [])
             false onceAndPatMsgr.patterns := by
  refine ⟨⟨by unfold tableKeysNodup; decide, by decide, by decide⟩, ?_⟩
  exact (claim_dispatch_exact_then_patterns_amended ptEq onceAndPatMsgr "m" "q" false
    (by unfold tableKeysNodup; decide) (by decide) (by decide)).1

/-! ### Claim C9 -/

theorem foldl_append_step {b : Type} (f : List Subscriber → b → List Subscriber)
    (g : b → List Subscriber) (hf : ∀ acc x, f acc x = acc ++ g x)
    (l : List b) (init : List Subscriber) :
    l.foldl f init = init ++ (l.map g).flatten := by
  induction l generalizing init with
  | nil => simp
  | cons x rest ih =>
      rw [List.foldl_cons, hf, ih]
      simp

theorem matchingPatternSubs_eq_flatten (ptest : String → String → Bool) (s : String)
    (T : Table) :
    (T.map (fun kv =>
      match kv.1 with
      | MKey.pat p => if ¬kv.2.isEmpty ∧ ptest p s then kv.2 else []
      | MKey.str _ => [])).flatten = matchingPatternSubs ptest s T := by
  induction T with
  | nil => rfl
  | cons kv rest ih =>
      obtain ⟨k₀, v₀⟩ := kv
      cases k₀ with
      | str s' => simpa [matchingPatternSubs] using ih
      | pat p =>
          simp only [List.map_cons, List.flatten_cons, matchingPatternSubs, ih]

theorem getSubscribers_fold_eq (ptest : String → String → Bool) (s : String)
    (T : Table) (init : List Subscriber) :
    T.foldl (fun acc kv =>
      match kv.1 with
      | MKey.pat p => if ¬kv.2.isEmpty ∧ ptest p s then acc ++ kv.2 else acc
      | MKey.str _ => acc) init
    = init ++ matchingPatternSubs ptest s T := by
  rw [foldl_append_step _ (fun kv =>
      match kv.1 with
      | MKey.pat p => if ¬kv.2.isEmpty ∧ ptest p s then kv.2 else []
      | MKey.str _ => []) ?hstep T init]
  · rw [matchingPatternSubs_eq_flatten]
  case hstep =>
    intro acc kv
    obtain ⟨k₀, v₀⟩ := kv
    cases k₀ with
    | str s' => simp
    | pat p =>
        dsimp only
        by_cases hc : ¬v₀.isEmpty = true ∧ ptest p s = true
        · rw [if_pos hc, if_pos hc]
        · rw [if_neg hc, if_neg hc, List.append_nil]

theorem matchingPatternSubs_eq_nil_iff (ptest : String → String → Bool) (s : String)
    (T : Table) :
    matchingPatternSubs ptest s T = []
      ↔ ∀ kv ∈ T, ∀ p, kv.1 = MKey.pat p → kv.2 = [] ∨ ptest p s = false := by
  induction T with
  | nil => simp [matchingPatternSubs]
  | cons kv rest ih =>
      obtain ⟨k₀, v₀⟩ := kv
      cases k₀ with
      | str s' =>
          rw [show matchingPatternSubs ptest s ((MKey.str s', v₀) :: rest)
              = matchingPatternSubs ptest s rest from rfl, ih]
          constructor
          · intro h kv hkv p hp
            rcases List.mem_cons.mp hkv with h' | h'
            · subst h'
              simp at hp
            · exact h kv h' p hp
          · intro h kv hkv p hp
            exact h kv (List.mem_cons_of_mem _ hkv) p hp
      | pat p =>
          rw [show matchingPatternSubs ptest s ((MKey.pat p, v₀) :: rest)
              = (if ¬v₀.isEmpty ∧ ptest p s then v₀ else [])
                ++ matchingPatternSubs ptest s rest from rfl]
          by_cases hc : ¬v₀.isEmpty = true ∧ ptest p s = true
          · rw [if_pos hc]
            constructor
            · intro h
              exfalso
              rcases List.append_eq_nil.mp h with ⟨h1, _⟩
              exact hc.1 (List.isEmpty_iff.mpr h1)
            · intro h
              exfalso
              rcases h (MKey.pat p, v₀) (List.mem_cons_self _ _) p rfl with h' | h'
              · exact hc.1 (List.isEmpty_iff.mpr h')
              · rw [hc.2] at h'
                cases h'
          · rw [if_neg hc, List.nil_append, ih]
            push_neg at hc
            constructor
            · intro h kv hkv q hq
              rcases List.mem_cons.mp hkv with h' | h'
              · subst h'
                have hq' : MKey.pat p = MKey.pat q := hq
                cases hq'
                by_cases he : v₀.isEmpty = true
                · exact Or.inl (List.isEmpty_iff.mp he)
                · right
                  have := hc he
                  cases hb : ptest p s with
                  | false => rfl
                  | true => exact absurd hb this
              · exact h kv h' q hq
            · intro h kv hkv q hq
              exact h kv (List.mem_cons_of_mem _ hkv) q hq

theorem mem_matchingPatternSubs (ptest : String → String → Bool) (s : String)
    (T : Table) (kv : MKey × List Subscriber) (p : String) (sub : Subscriber)
    (hkv : kv ∈ T) (hp : kv.1 = MKey.pat p) (hm : ptest p s = true)
    (hne : kv.2 ≠ []) (hsub : sub ∈ kv.2) :
    sub ∈ matchingPatternSubs ptest s T := by
  induction T with
  | nil => simp at hkv
  | cons kv₀ rest ih =>
      obtain ⟨k₀, v₀⟩ := kv₀
      rcases List.mem_cons.mp hkv with h' | h'
      · subst h'
        have hp' : k₀ = MKey.pat p := hp
        subst hp'
        have hc : ¬v₀.isEmpty = true ∧ ptest p s = true := by
          constructor
          · intro he
            exact hne (List.isEmpty_iff.mp he)
          · exact hm
        rw [show matchingPatternSubs ptest s ((MKey.pat p, v₀) :: rest)
            = (if ¬v₀.isEmpty ∧ ptest p s then v₀ else [])
              ++ matchingPatternSubs ptest s rest from rfl, if_pos hc]
        exact List.mem_append_left _ hsub
      · have hrec := ih h'
        cases k₀ with
        | str s' =>
            rw [show matchingPatternSubs ptest s ((MKey.str s', v₀) :: rest)
                = matchingPatternSubs ptest s rest from rfl]
            exact hrec
        | pat q =>
            rw [show matchingPatternSubs ptest s ((MKey.pat q, v₀) :: rest)
                = (if ¬v₀.isEmpty ∧ ptest q s then v₀ else [])
                  ++ matchingPatternSubs ptest s rest from rfl]
            exact List.mem_append_right _ hrec

theorem getSubscribers_str_eq (ptest : String → String → Bool) (S : MsgrState)
    (incl : Option Bool) (s : String) (h : incl ≠ some false) :
    getSubscribers ptest S (.str s) incl
      = (if ((lookupTable S.exact (.str s)).getD []
              ++ matchingPatternSubs ptest s S.patterns).isEmpty
         then none
         else some ((lookupTable S.exact (.str s)).getD []
              ++ matchingPatternSubs ptest s S.patterns)) := by
  unfold getSubscribers
  dsimp only
  rw [if_pos (⟨h, rfl⟩ : incl ≠ some false ∧ MKey.isStr (.str s) = true)]
  rw [getSubscribers_fold_eq ptest s S.patterns []]
  rw [List.nil_append]

theorem getSubscribers_str_false (ptest : String → String → Bool) (S : MsgrState)
    (s : String) :
    getSubscribers ptest S (.str s) (some false)
      = (if ((lookupTable S.exact (.str s)).getD []).isEmpty then none
         else some ((lookupTable S.exact (.str s)).getD [])) := by
  unfold getSubscribers
  dsimp only
  rw [if_neg (by intro hh; exact hh.1 rfl :
    ¬ ((some false : Option Bool) ≠ some false ∧ MKey.isStr (.str s) = true))]

theorem getSubscribers_pat_eq (ptest : String → String → Bool) (S : MsgrState)
    (incl : Option Bool) (p : String) :
    getSubscribers ptest S (.pat p) incl
      = (if ((lookupTable S.patterns (.pat p)).getD []).isEmpty then none
         else some ((lookupTable S.patterns (.pat p)).getD [])) := by
  unfold getSubscribers
  dsimp only
  by_cases hc : incl ≠ some false ∧ MKey.isStr (.pat p) = true
  · rw [if_pos hc]
  · rw [if_neg hc]

/-- C9: `getSubscribers` never returns an empty collection — the result is
`undefined` (`none`) exactly when nothing matches; for a string message the
matching set is the exact entry plus, unless the second argument is exactly
`false`, every non-empty pattern entry whose pattern matches, and each such
pattern subscriber is indeed included; for a RegExp message only the entry
registered under exactly that pattern is consulted. -/
theorem claim_getSubscribers_never_empty (ptest : String → String → Bool)
    (S : MsgrState) (incl : Option Bool) :
    (∀ k l, getSubscribers ptest S k incl = some l → l ≠ []) ∧
    (∀ s, incl ≠ some false →
      (getSubscribers ptest S (.str s) incl = none ↔
       ((lookupTable S.exact (.str s)).getD [] = [] ∧
        ∀ kv ∈ S.patterns, ∀ p, kv.1 = MKey.pat p → kv.2 = [] ∨ ptest p s = false))) ∧
    (∀ s, getSubscribers ptest S (.str s) (some false) = none ↔
       (lookupTable S.exact (.str s)).getD [] = []) ∧
    (∀ p, getSubscribers ptest S (.pat p) incl = none ↔
       (lookupTable S.patterns (.pat p)).getD [] = []) ∧
    (∀ s, incl ≠ some false →
       ∀ kv ∈ S.patterns, ∀ p, kv.1 = MKey.pat p → ptest p s = true → kv.2 ≠ [] →
         ∀ sub ∈ kv.2, ∃ l, getSubscribers ptest S (.str s) incl = some l ∧ sub ∈ l) := by
  refine ⟨?_, ?_, ?_, ?_, ?_⟩
  · intro k l h hnil
    subst hnil
    cases k with
    | str s =>
        by_cases hincl : incl = some false
        · subst hincl
          rw [getSubscribers_str_false] at h
          by_cases he : ((lookupTable S.exact (.str s)).getD []).isEmpty
          · rw [if_pos he] at h
            exact Option.noConfusion h
          · rw [if_neg he] at h
            rw [Option.some.injEq] at h
            rw [h] at he
            simp at he
        · rw [getSubscribers_str_eq ptest S incl s hincl] at h
          by_cases he : ((lookupTable S.exact (.str s)).getD []
              ++ matchingPatternSubs ptest s S.patterns).isEmpty
          · rw [if_pos he] at h
            exact Option.noConfusion h
          · rw [if_neg he] at h
            rw [Option.some.injEq] at h
            rw [h] at he
            simp at he
    | pat p =>
        rw [getSubscribers_pat_eq] at h
        by_cases he : ((lookupTable S.patterns (.pat p)).getD []).isEmpty
        · rw [if_pos he] at h
          exact Option.noConfusion h
        · rw [if_neg he] at h
          rw [Option.some.injEq] at h
          rw [h] at he
          simp at he
  · intro s hincl
    rw [getSubscribers_str_eq ptest S incl s hincl]
    by_cases he : ((lookupTable S.exact (.str s)).getD []
        ++ matchingPatternSubs ptest s S.patterns).isEmpty
    · rw [if_pos he]
      rw [List.isEmpty_iff, List.append_eq_nil] at he
      exact iff_of_true rfl
        ⟨he.1, (matchingPatternSubs_eq_nil_iff ptest s S.patterns).mp he.2⟩
    · rw [if_neg he]
      rw [List.isEmpty_iff, List.append_eq_nil] at he
      refine iff_of_false (by simp) ?_
      intro hc
      exact he ⟨hc.1, (matchingPatternSubs_eq_nil_iff ptest s S.patterns).mpr hc.2⟩
  · intro s
    rw [getSubscribers_str_false]
    by_cases he : ((lookupTable S.exact (.str s)).getD []).isEmpty
    · rw [if_pos he]
      rw [List.isEmpty_iff] at he
      exact iff_of_true rfl he
    · rw [if_neg he]
      rw [List.isEmpty_iff] at he
      exact iff_of_false (by simp) he
  · intro p
    rw [getSubscribers_pat_eq]
    by_cases he : ((lookupTable S.patterns (.pat p)).getD []).isEmpty
    · rw [if_pos he]
      rw [List.isEmpty_iff] at he
      exact iff_of_true rfl he
    · rw [if_neg he]
      rw [List.isEmpty_iff] at he
      exact iff_of_false (by simp) he
  · intro s hincl kv hkv p hp hm hne sub hsub
    have hmem : sub ∈ (lookupTable S.exact (.str s)).getD []
        ++ matchingPatternSubs ptest s S.patterns :=
      List.mem_append_right _
        (mem_matchingPatternSubs ptest s S.patterns kv p sub hkv hp hm hne hsub)
    refine ⟨(lookupTable S.exact (.str s)).getD []
      ++ matchingPatternSubs ptest s S.patterns, ?_, hmem⟩
    rw [getSubscribers_str_eq ptest S incl s hincl]
    rw [if_neg ?hne]
    case hne =>
      intro he
      rw [List.isEmpty_iff] at he
      rw [he] at hmem
      simp at hmem

/-- Closed witness for C9 on a concrete messenger. -/
theorem claim_getSubscribers_never_empty_witness :
    ∃ l, getSubscribers ptEq onceAndPatMsgr (.str "m") none = some l ∧
      (⟨1, 0, none, none, .pat "m"⟩ : Subscriber) ∈ l := by
  rcases (claim_getSubscribers_never_empty ptEq onceAndPatMsgr none).2.2.2.2 "m"
      (by simp) (MKey.pat "m", [⟨1, 0, none, none, .pat "m"⟩]) (by decide) "m" rfl
      (by decide) (by simp) ⟨1, 0, none, none, .pat "m"⟩ (by simp) with ⟨l, hl, hmem⟩
  exact ⟨l, hl, hmem⟩

/-! ### Claim C2 -/

/-- C2: the completion callback of a `changedata` write: when it reports
success (`changeFinished = true`, no error) the reverse link is re-attached
as a `datachanges` subscriber on the target and `changecompleted` is posted
with the two endpoints; when it reports an error nothing happens — the
reverse link stays detached, no lifecycle message is posted and no retry
write is issued. -/
theorem claim_changedata_callback (α : Type) (source target : Nat) :
    (∀ changeFinished : Bool,
      subscriptionSwitch (α := α) true changeFinished source target = []) ∧
    subscriptionSwitch (α := α) false true source target
      = [CEffect.setReverseLink true, CEffect.lifecycle true source target] ∧
    (∀ changeFinished : Bool,
      ∀ e ∈ subscriptionSwitch (α := α) true changeFinished source target,
        e.isWrite = false) := by
  refine ⟨fun _ => rfl, rfl, ?_⟩
  intro cf e he
  simp [subscriptionSwitch] at he

/-- Closed witness for C2 at concrete endpoints. -/
theorem claim_changedata_callback_witness :
    subscriptionSwitch (α := Nat) false true 1 2
      = [CEffect.setReverseLink true, CEffect.lifecycle true 1 2]
    ∧ subscriptionSwitch (α := Nat) true false 1 2 = [] :=
  ⟨(claim_changedata_callback Nat 1 2).2.1, (claim_changedata_callback Nat 1 2).1 false⟩

/-! ### Claim C10 -/

/-- C10: the Model's `path` method (also invoked by calling the model
function itself) returns the model object itself exactly when the access
path is falsy — absent or the empty string — and a fresh ModelPath view
bound to the access path otherwise. -/
theorem claim_model_path_falsy :
    (∀ ap, modelPath ap = PathResult.modelItself ↔ (ap = none ∨ ap = some "")) ∧
    (∀ s, s ≠ "" → modelPath (some s) = PathResult.modelPathView s) := by
  constructor
  · intro ap
    cases ap with
    | none => simp [modelPath]
    | some s =>
        by_cases h : s = ""
        · simp [modelPath, h]
        · simp [modelPath, h]
  · intro s h
    simp [modelPath, h]

/-- Closed witness for C10. -/
theorem claim_model_path_falsy_witness :
    (modelPath none = PathResult.modelItself
      ↔ ((none : Option String) = none ∨ (none : Option String) = some ""))
    ∧ ("a" ≠ "" ∧ modelPath (some "a") = PathResult.modelPathView "a") :=
  ⟨(claim_model_path_falsy).1 none,
   by decide,
   (claim_model_path_falsy).2 "a" (by decide)⟩

/-! ### Claim C1 -/

/-- C1 counterexample: two consecutive queued batches carrying DIFFERENT
transaction ids. The source's merge only tests `batch.transaction` for
truthiness and concatenates them into one transaction, while the claim's
same-id merge keeps them apart. -/
theorem claim_merge_transactions_cex :
    mergeTransactions (α := Nat) [⟨some 1, [10]⟩, ⟨some 2, [20]⟩] = [[10, 20]]
    ∧ mergeTransactionsSameId (α := Nat) [⟨some 1, [10]⟩, ⟨some 2, [20]⟩] = [[10], [20]]
    ∧ mergeTransactions (α := Nat) [⟨some 1, [10]⟩, ⟨some 2, [20]⟩]
        ≠ mergeTransactionsSameId (α := Nat) [⟨some 1, [10]⟩, ⟨some 2, [20]⟩] :=
  ⟨by decide, by decide, by decide⟩

theorem mergeAux_eq_foldl {α : Type} (bs : List (Batch α)) :
    (∀ done : List (List α),
      (bs.foldl mergeAmendedStep (done, false)).1 = done ++ mergeAux none bs)
    ∧ (∀ (done : List (List α)) (c : List α),
      (bs.foldl mergeAmendedStep (done ++ [c], true)).1 = done ++ mergeAux (some c) bs) := by
  induction bs with
  | nil => constructor <;> intros <;> simp [mergeAux]
  | cons b bs ih =>
      obtain ⟨ihn, ihs⟩ := ih
      constructor
      · intro done
        rw [List.foldl_cons]
        cases htx : b.transaction with
        | none =>
            by_cases he : b.changes.isEmpty
            · have hstep : mergeAmendedStep (done, false) b = (done, false) := by
                unfold mergeAmendedStep
                rw [htx]
                simp [he]
              rw [hstep, ihn done]
              simp [mergeAux, htx, he, List.isEmpty_iff.mp he]
            · have hstep : mergeAmendedStep (done, false) b
                  = (done ++ [b.changes], false) := by
                unfold mergeAmendedStep
                rw [htx]
                simp [he]
              rw [hstep, ihn (done ++ [b.changes])]
              simp [mergeAux, htx, he]
        | some tid =>
            by_cases he : b.changes.isEmpty
            · have hstep : mergeAmendedStep (done, false) b = (done, false) := by
                unfold mergeAmendedStep
                rw [htx]
                simp [he]
              rw [hstep, ihn done]
              simp [mergeAux, htx, he]
            · have hstep : mergeAmendedStep (done, false) b
                  = (done ++ [b.changes], true) := by
                unfold mergeAmendedStep
                rw [htx]
                simp [he]
              rw [hstep, ihs done b.changes]
              simp [mergeAux, htx, he]
      · intro done c
        rw [List.foldl_cons]
        cases htx : b.transaction with
        | none =>
            by_cases he : b.changes.isEmpty
            · have hstep : mergeAmendedStep (done ++ [c], true) b
                  = (done ++ [c], false) := by
                unfold mergeAmendedStep
                rw [htx]
                simp [he]
              rw [hstep, ihn (done ++ [c])]
              simp [mergeAux, htx, he, List.isEmpty_iff.mp he]
            · have hstep : mergeAmendedStep (done ++ [c], true) b
                  = ((done ++ [c]) ++ [b.changes], false) := by
                unfold mergeAmendedStep
                rw [htx]
                simp [he]
              rw [hstep, ihn ((done ++ [c]) ++ [b.changes])]
              simp [mergeAux, htx, he]
        | some tid =>
            by_cases he : b.changes.isEmpty
            · have hstep : mergeAmendedStep (done ++ [c], true) b
                  = (done ++ [c], true) := by
                unfold mergeAmendedStep
                rw [htx]
                simp [he]
              rw [hstep, ihs done c]
              simp [mergeAux, htx, he]
            · have hstep : mergeAmendedStep (done ++ [c], true) b
                  = (done ++ [c ++ b.changes], true) := by
                unfold mergeAmendedStep
                rw [htx]
                simp [he, List.dropLast_concat, List.getLast?_concat]
              rw [hstep, ihs done (c ++ b.changes)]
              simp [mergeAux, htx, he]

theorem mergeTransactions_eq_amended {α : Type} (q : List (Batch α)) :
    mergeTransactions q = mergeTransactionsAmended q := by
  unfold mergeTransactions mergeTransactionsAmended
  have := (mergeAux_eq_foldl q).1 []
  simpa using this.symm

theorem mergeAux_flatten {α : Type} (bs : List (Batch α)) :
    ∀ cur : Option (List α),
      (mergeAux cur bs).flatten
        = (match cur with | none => [] | some c => c) ++ (bs.map Batch.changes).flatten := by
  induction bs with
  | nil =>
      intro cur
      cases cur with
      | none => simp [mergeAux]
      | some c => simp [mergeAux]
  | cons b bs ih =>
      intro cur
      cases htx : b.transaction with
      | none =>
          by_cases he : b.changes.isEmpty
          · rw [List.isEmpty_iff] at he
            cases cur with
            | none => simp [mergeAux, htx, he, ih]
            | some c => simp [mergeAux, htx, he, ih]
          · have hne : ¬ b.changes.isEmpty = true := he
            cases cur with
            | none => simp [mergeAux, htx, hne, ih]
            | some c => simp [mergeAux, htx, hne, ih]
      | some tid =>
          by_cases he : b.changes.isEmpty
          · rw [List.isEmpty_iff] at he
            cases cur with
            | none => simp [mergeAux, htx, he, ih]
            | some c => simp [mergeAux, htx, he, ih]
          · have hne : ¬ b.changes.isEmpty = true := he
            cases cur with
            | none => simp [mergeAux, htx, hne, ih]
            | some c => simp [mergeAux, htx, hne, ih]

theorem mergeAux_no_empty {α : Type} (bs : List (Batch α)) :
    ∀ cur : Option (List α), cur ≠ some [] → [] ∉ mergeAux cur bs := by
  induction bs with
  | nil =>
      intro cur hcur
      cases cur with
      | none => simp [mergeAux]
      | some c =>
          simp [mergeAux]
          intro hc
          exact hcur (by rw [hc])
  | cons b bs ih =>
      intro cur hcur
      cases htx : b.transaction with
      | none =>
          by_cases he : b.changes.isEmpty
          · cases cur with
            | none =>
                simp only [mergeAux, htx, he, if_true, List.nil_append]
                exact ih none (by simp)
            | some c =>
                simp only [mergeAux, htx, he, if_true]
                intro hmem
                rcases List.mem_append.mp hmem with h | h
                · rw [List.mem_singleton] at h
                  exact hcur (by rw [h])
                · exact ih none (by simp) h
          · have hne : b.changes ≠ [] := fun hh => he (by rw [hh]; rfl)
            cases cur with
            | none =>
                simp only [mergeAux, htx, he, Bool.false_eq_true, if_false,
                  List.nil_append]
                intro hmem
                rcases List.mem_append.mp hmem with h | h
                · rw [List.mem_singleton] at h
                  exact hne h.symm
                · exact ih none (by simp) h
            | some c =>
                simp only [mergeAux, htx, he, Bool.false_eq_true, if_false]
                intro hmem
                rcases List.mem_append.mp hmem with h | h
                · rcases List.mem_append.mp h with h' | h'
                  · rw [List.mem_singleton] at h'
                    exact hcur (by rw [h'])
                  · rw [List.mem_singleton] at h'
                    exact hne h'.symm
                · exact ih none (by simp) h
      | some tid =>
          by_cases he : b.changes.isEmpty
          · simp only [mergeAux, htx, he, if_true]
            exact ih cur hcur
          · have hne : b.changes ≠ [] := fun hh => he (by rw [hh]; rfl)
            cases cur with
            | none =>
                simp only [mergeAux, htx, he, Bool.false_eq_true, if_false]
                exact ih (some b.changes) (by simp [hne])
            | some c =>
                simp only [mergeAux, htx, he, Bool.false_eq_true, if_false]
                apply ih (some (c ++ b.changes))
                simp only [ne_eq, Option.some.injEq]
                intro hh
                rcases List.append_eq_nil.mp hh with ⟨_, h2⟩
                exact hne h2

/-- C1 (amended): on the scheduled flush, the queued batches are merged so
that consecutive batches each bearing a (truthy) transaction id are
concatenated into one running transaction regardless of whether the ids are
equal; a batch with no transaction id closes any running transaction and
forms its own singleton transaction; a batch with an empty change list
contributes no transaction; intra-batch change order and batch-arrival order
are preserved (the concatenation of the merged transactions is exactly the
concatenation of the queued change lists); the queue is cleared, and each
resulting transaction is applied to the target endpoint as one synchronous
`changedata` write. -/
theorem claim_flush_merges_batches (α : Type) (q : List (Batch α))
    (hasReverseLink : Bool) :
    postChangeData hasReverseLink q
      = ((mergeTransactionsAmended q).map (fun t => CEffect.write t hasReverseLink), [])
    ∧ (mergeTransactions q).flatten = (q.map Batch.changes).flatten
    ∧ [] ∉ mergeTransactions q := by
  refine ⟨?_, ?_, ?_⟩
  · unfold postChangeData
    rw [mergeTransactions_eq_amended]
  · have := mergeAux_flatten q none
    simpa [mergeTransactions] using this
  · exact mergeAux_no_empty q none (by simp)

/-- Closed witness for C1 on the two-batch queue of the counterexample. -/
theorem claim_flush_merges_batches_witness :
    postChangeData false [(⟨some 1, [10]⟩ : Batch Nat), ⟨some 2, [20]⟩]
      = ((mergeTransactionsAmended [(⟨some 1, [10]⟩ : Batch Nat), ⟨some 2, [20]⟩]).map
          (fun t => CEffect.write t false), [])
    ∧ (mergeTransactions [(⟨some 1, [10]⟩ : Batch Nat), ⟨some 2, [20]⟩]).flatten
        = ([(⟨some 1, [10]⟩ : Batch Nat), ⟨some 2, [20]⟩].map Batch.changes).flatten
    ∧ [] ∉ mergeTransactions [(⟨some 1, [10]⟩ : Batch Nat), ⟨some 2, [20]⟩] :=
  claim_flush_merges_batches Nat [⟨some 1, [10]⟩, ⟨some 2, [20]⟩] false

/-! ### Claim C8 -/

theorem onData_fold_closed {V : Type} (ptest : String → String → Bool)
    (d : Direction V) (fromDS : Nat) (l : List (ChangeRec V))
    (a : List (OutChange V)) (m : List ValidatedMsg) :
    l.foldl
      (fun acc ch =>
        let r := onDataChange ptest d fromDS ch
        (acc.1 ++ (match r.1 with | some oc => [oc] | none => []), acc.2 ++ r.2))
      (a, m)
    = (a ++ (l.map (fun ch =>
          match (onDataChange ptest d fromDS ch).1 with
          | some oc => [oc]
          | none => [])).flatten,
       m ++ (l.map (fun ch => (onDataChange ptest d fromDS ch).2)).flatten) := by
  induction l generalizing a m with
  | nil => simp
  | cons ch l ih =>
      rw [List.foldl_cons]
      dsimp only
      rw [ih]
      simp [List.append_assoc]

theorem onData_closed {V : Type} (ptest : String → String → Bool) (d : Direction V)
    (fromDS : Nat) (batch : Batch (ChangeRec V)) :
    onData ptest d fromDS batch
    = ({ transaction := batch.transaction,
         changes := (batch.changes.map (fun ch =>
            match (onDataChange ptest d fromDS ch).1 with
            | some oc => [oc]
            | none => [])).flatten },
       (batch.changes.map (fun ch => (onDataChange ptest d fromDS ch).2)).flatten) := by
  unfold onData
  dsimp only
  rw [onData_fold_closed ptest d fromDS batch.changes [] []]
  simp

theorem translatePath_dv {V : Type} (ptest : String → String → Bool)
    (d : Direction V) (dv : Option (List (String × List (Validator V))))
    (p : String) :
    translatePath ptest { d with dataValidation := dv } p
      = translatePath ptest d p := rfl

theorem onDataChange_fst_dv {V : Type} (ptest : String → String → Bool)
    (d : Direction V) (dv : Option (List (String × List (Validator V))))
    (fromDS : Nat) (ch : ChangeRec V) :
    (onDataChange ptest { d with dataValidation := dv } fromDS ch).1
      = (onDataChange ptest d fromDS ch).1 := by
  unfold onDataChange
  rw [translatePath_dv]
  cases translatePath ptest d ch.path with
  | none => rfl
  | some tp => rfl

theorem onData_fst_dv {V : Type} (ptest : String → String → Bool)
    (d : Direction V) (dv : Option (List (String × List (Validator V))))
    (fromDS : Nat) (batch : Batch (ChangeRec V)) :
    (onData ptest { d with dataValidation := dv } fromDS batch).1
      = (onData ptest d fromDS batch).1 := by
  rw [onData_closed, onData_closed]
  simp only [onDataChange_fst_dv]

theorem onDataChange_fst_some {V : Type} (ptest : String → String → Bool)
    (d : Direction V) (fromDS : Nat) (c : ChangeRec V) (tp : String)
    (htp : translatePath ptest d c.path = some tp) :
    ∃ out, (onDataChange ptest d fromDS c).1 = some out
      ∧ out.path = tp ∧ out.source = fromDS := by
  simp only [onDataChange, htp]
  exact ⟨_, rfl, rfl, rfl⟩

theorem onData_mem_changes {V : Type} (ptest : String → String → Bool)
    (d : Direction V) (fromDS : Nat) (batch : Batch (ChangeRec V)) (c : ChangeRec V)
    (out : OutChange V) (hmem : c ∈ batch.changes)
    (hc1 : (onDataChange ptest d fromDS c).1 = some out) :
    out ∈ (onData ptest d fromDS batch).1.changes := by
  rw [onData_closed]
  dsimp only
  refine List.mem_flatten.mpr ⟨[out], ?_, List.mem_singleton_self out⟩
  refine List.mem_map.mpr ⟨c, hmem, ?_⟩
  rw [hc1]

theorem onData_mem_msgs {V : Type} (ptest : String → String → Bool)
    (d : Direction V) (fromDS : Nat) (batch : Batch (ChangeRec V)) (c : ChangeRec V)
    (msg : ValidatedMsg) (hmem : c ∈ batch.changes)
    (hmsg : msg ∈ (onDataChange ptest d fromDS c).2) :
    msg ∈ (onData ptest d fromDS batch).2 := by
  rw [onData_closed]
  dsimp only
  exact List.mem_flatten.mpr ⟨_, List.mem_map.mpr ⟨c, hmem, rfl⟩, hmsg⟩

theorem onDataChange_msgs {V : Type} (ptest : String → String → Bool)
    (d : Direction V) (fromDS : Nat) (c : ChangeRec V) (tp : String)
    (dval : List (String × List (Validator V))) (validators : List (Validator V))
    (oc : OutChange V)
    (htp : translatePath ptest d c.path = some tp)
    (hdv : d.dataValidation = some dval)
    (hval : lookupAssoc dval c.path = some validators)
    (hout : (onDataChange ptest d fromDS c).1 = some oc) :
    (onDataChange ptest d fromDS c).2
      = runValidators c.path (validators.map (fun vf => vf oc.newValue)) := by
  simp only [onDataChange, htp, Option.some.injEq] at hout
  subst hout
  simp only [onDataChange, htp, hdv, hval]

theorem runValidatorsAux_invalid (sp : String) (total : Nat)
    (results : List (Bool × Bool)) :
    ∀ (passed : Nat) (failed : Bool),
      (∃ r ∈ results, r.2 = false) →
      ∃ msg ∈ runValidatorsAux sp total passed failed results,
        msg.valid = false ∧ msg.path = sp := by
  induction results with
  | nil =>
      rintro passed failed ⟨r, hr, _⟩
      exact absurd hr (List.not_mem_nil r)
  | cons r rest ih =>
      rintro passed failed ⟨r', hr', hval⟩
      unfold runValidatorsAux
      rcases List.mem_cons.mp hr' with h | h
      · subst h
        by_cases hc : (!failed && (r'.1 || r'.2)) = true
        · rw [if_pos hc]
          by_cases hp : passed + 1 = total
          · rw [if_pos hp]
            exact ⟨⟨sp, r'.2⟩, List.mem_cons_self _ _, hval, rfl⟩
          · rw [if_neg hp, if_pos (by simp [hval])]
            exact ⟨⟨sp, r'.2⟩, List.mem_cons_self _ _, hval, rfl⟩
        · rw [if_neg hc, if_pos (by simp [hval])]
          exact ⟨⟨sp, r'.2⟩, List.mem_cons_self _ _, hval, rfl⟩
      · by_cases hc : (!failed && (r.1 || r.2)) = true
        · rw [if_pos hc]
          by_cases hp : passed + 1 = total
          · rw [if_pos hp]
            obtain ⟨msg, hm, h1, h2⟩ := ih (passed + 1) failed ⟨r', h, hval⟩
            exact ⟨msg, List.mem_cons_of_mem _ hm, h1, h2⟩
          · rw [if_neg hp]
            by_cases h2c : (!r.2) = true
            · rw [if_pos h2c]
              obtain ⟨msg, hm, h1, h2⟩ := ih (passed + 1) true ⟨r', h, hval⟩
              exact ⟨msg, List.mem_cons_of_mem _ hm, h1, h2⟩
            · rw [if_neg h2c]
              exact ih (passed + 1) failed ⟨r', h, hval⟩
        · rw [if_neg hc]
          by_cases h2c : (!r.2) = true
          · rw [if_pos h2c]
            obtain ⟨msg, hm, h1, h2⟩ := ih passed true ⟨r', h, hval⟩
            exact ⟨msg, List.mem_cons_of_mem _ hm, h1, h2⟩
          · rw [if_neg h2c]
            exact ih passed failed ⟨r', h, hval⟩

theorem runValidators_invalid (sp : String) (results : List (Bool × Bool))
    (hres : ∃ r ∈ results, r.2 = false) :
    ∃ msg ∈ runValidators sp results, msg.valid = false ∧ msg.path = sp :=
  runValidatorsAux_invalid sp results.length results 0 false hres

theorem write_mem_postChangeData {α : Type} (h : Bool) (q : List (Batch α))
    (b : Batch α) (x : α) (hb : b ∈ q) (hx : x ∈ b.changes) :
    ∃ t, CEffect.write t h ∈ (postChangeData h q).1 ∧ x ∈ t := by
  have hfl : x ∈ (mergeTransactions q).flatten := by
    unfold mergeTransactions
    have := mergeAux_flatten q none
    simp only [List.nil_append] at this
    rw [this]
    exact List.mem_flatten.mpr ⟨b.changes, List.mem_map.mpr ⟨b, hb, rfl⟩, hx⟩
  obtain ⟨t, ht, hxt⟩ := List.mem_flatten.mp hfl
  exact ⟨t, List.mem_map.mpr ⟨t, ht, rfl⟩, hxt⟩

/-- C8: validation is advisory in a direction's `datachanges` handler: the
outgoing batch does not depend on the validation configuration at all;
every change that obtains a translation target path is appended to the
outgoing batch; when the validators configured for a change's source path
include one reporting invalid, a `validated` message with `valid = false`
and the source path is posted on the source endpoint, yet the change is
still in the outgoing batch; and every change of the outgoing batch is
applied by the scheduled flush inside one of its `changedata` writes. -/
theorem claim_validation_advisory (V : Type) (ptest : String → String → Bool)
    (d : Direction V) (dv₁ dv₂ : Option (List (String × List (Validator V))))
    (fromDS : Nat) (batch : Batch (ChangeRec V)) (c : ChangeRec V) (tp : String)
    (dval : List (String × List (Validator V))) (validators : List (Validator V))
    (oc : OutChange V) (q1 q2 : List (Batch (OutChange V))) (hasReverseLink : Bool) :
    ((onData ptest { d with dataValidation := dv₁ } fromDS batch).1
      = (onData ptest { d with dataValidation := dv₂ } fromDS batch).1)
    ∧ (c ∈ batch.changes → translatePath ptest d c.path = some tp →
        ∃ out ∈ (onData ptest d fromDS batch).1.changes,
          out.path = tp ∧ out.source = fromDS)
    ∧ (c ∈ batch.changes →
        d.dataValidation = some dval →
        lookupAssoc dval c.path = some validators →
        translatePath ptest d c.path = some tp →
        (onDataChange ptest d fromDS c).1 = some oc →
        (∃ vf ∈ validators, (vf oc.newValue).2 = false) →
        ((∃ msg ∈ (onData ptest d fromDS batch).2,
            msg.valid = false ∧ msg.path = c.path)
          ∧ oc ∈ (onData ptest d fromDS batch).1.changes))
    ∧ (∀ out ∈ (onData ptest d fromDS batch).1.changes,
        ∃ t, CEffect.write t hasReverseLink
            ∈ (postChangeData hasReverseLink
                (q1 ++ (onData ptest d fromDS batch).1 :: q2)).1
          ∧ out ∈ t) := by
  refine ⟨?_, ?_, ?_, ?_⟩
  · rw [onData_fst_dv ptest d dv₁ fromDS batch, onData_fst_dv ptest d dv₂ fromDS batch]
  · intro hmem htp
    obtain ⟨out, hc1, hpath, hsrc⟩ := onDataChange_fst_some ptest d fromDS c tp htp
    exact ⟨out, onData_mem_changes ptest d fromDS batch c out hmem hc1, hpath, hsrc⟩
  · intro hmem hdv hval htp hout hfail
    constructor
    · have hres : ∃ r ∈ validators.map (fun vf => vf oc.newValue), r.2 = false := by
        obtain ⟨vf, hvf, hv2⟩ := hfail
        exact ⟨vf oc.newValue, List.mem_map.mpr ⟨vf, hvf, rfl⟩, hv2⟩
      obtain ⟨msg, hm, hv, hp⟩ := runValidators_invalid c.path _ hres
      have hmsgs := onDataChange_msgs ptest d fromDS c tp dval validators oc
        htp hdv hval hout
      exact ⟨msg,
        onData_mem_msgs ptest d fromDS batch c msg hmem (by rw [hmsgs]; exact hm),
        hv, hp⟩
    · exact onData_mem_changes ptest d fromDS batch c oc hmem hout
  · intro out hout'
    exact write_mem_postChangeData hasReverseLink
      (q1 ++ (onData ptest d fromDS batch).1 :: q2)
      (onData ptest d fromDS batch).1 out (by simp) hout'

/-- Closed witness for C8: the always-failing validator of `cfgC8` posts a
`validated` message with `valid = false` for path `"a"` while the translated
change still reaches the outgoing batch. -/
theorem claim_validation_advisory_witness :
    (∃ msg ∈ (onData ptEq cfgC8 5 batchC8).2,
        msg.valid = false ∧ msg.path = (⟨"a", 0, 1⟩ : ChangeRec Nat).path)
    ∧ (⟨"b", 0, 1, 5⟩ : OutChange Nat) ∈ (onData ptEq cfgC8 5 batchC8).1.changes :=
  (claim_validation_advisory Nat ptEq cfgC8 none (some []) 5 batchC8 ⟨"a", 0, 1⟩ "b"
      [("a", [vfC8])] [vfC8] ⟨"b", 0, 1, 5⟩ [] [] false).2.2.1
    (List.mem_singleton_self _)
    rfl
    rfl
    rfl
    rfl
    ⟨vfC8, List.mem_singleton_self _, rfl⟩

/-! ### Claim C3 -/

theorem span_loop_eq (p : Char → Bool) (l : List Char) : ∀ acc : List Char,
    List.span.loop p l acc = (acc.reverse ++ l.takeWhile p, l.dropWhile p) := by
  induction l with
  | nil => intro acc; simp [List.span.loop]
  | cons c t ih =>
      intro acc
      by_cases hc : p c = true
      · simp [List.span.loop, hc, List.takeWhile_cons, List.dropWhile_cons, ih (c :: acc)]
      · simp [List.span.loop, hc, List.takeWhile_cons, List.dropWhile_cons]

theorem span_eq (p : Char → Bool) (l : List Char) :
    l.span p = (l.takeWhile p, l.dropWhile p) := by
  have := span_loop_eq p l []
  simpa [List.span] using this

theorem takeWhile_replicate_append (p : Char → Bool) (ch : Char) (h : p ch = true)
    (n : Nat) (rest : List Char) :
    (List.replicate n ch ++ rest).takeWhile p
      = List.replicate n ch ++ rest.takeWhile p := by
  induction n with
  | zero => simp
  | succ n ih => simp [List.replicate_succ, List.takeWhile_cons, h, ih]

theorem dropWhile_replicate_append (p : Char → Bool) (ch : Char) (h : p ch = true)
    (n : Nat) (rest : List Char) :
    (List.replicate n ch ++ rest).dropWhile p = rest.dropWhile p := by
  induction n with
  | zero => simp
  | succ n ih => simp [List.replicate_succ, List.dropWhile_cons, h, ih]

theorem takeWhile_replicate_neg (p : Char → Bool) (ch : Char) (h : p ch = false)
    (n : Nat) : (List.replicate n ch).takeWhile p = [] := by
  cases n with
  | zero => simp
  | succ n => simp [List.replicate_succ, List.takeWhile_cons, h]

theorem dropWhile_replicate_neg (p : Char → Bool) (ch : Char) (h : p ch = false)
    (n : Nat) : (List.replicate n ch).dropWhile p = List.replicate n ch := by
  cases n with
  | zero => simp
  | succ n => simp [List.replicate_succ, List.dropWhile_cons, h]

theorem parseMode_complete (a b c : Nat) (hb : 1 ≤ b) :
    parseMode (List.replicate a '<' ++ List.replicate b '-' ++ List.replicate c '>')
      = some (a, c) := by
  obtain ⟨b', rfl⟩ : ∃ b', b = b' + 1 := ⟨b - 1, by omega⟩
  unfold parseMode
  rw [List.append_assoc]
  have h1 : (List.replicate a '<' ++ (List.replicate (b' + 1) '-' ++ List.replicate c '>')).span
      (· = '<') = (List.replicate a '<', List.replicate (b' + 1) '-' ++ List.replicate c '>') := by
    rw [span_eq, takeWhile_replicate_append _ _ (by decide),
      dropWhile_replicate_append _ _ (by decide)]
    rw [List.replicate_succ]
    simp [List.takeWhile_cons, List.dropWhile_cons]
  have h2 : (List.replicate (b' + 1) '-' ++ List.replicate c '>').span (· = '-')
      = (List.replicate (b' + 1) '-', List.replicate c '>') := by
    rw [span_eq, takeWhile_replicate_append _ _ (by decide),
      dropWhile_replicate_append _ _ (by decide)]
    rw [takeWhile_replicate_neg _ _ (by decide), dropWhile_replicate_neg _ _ (by decide)]
    simp
  have h3 : (List.replicate c '>').span (· = '>')
      = (List.replicate c '>', ([] : List Char)) := by
    rw [span_eq]
    have ht := takeWhile_replicate_append (· = '>') '>' (by decide) c []
    have hd := dropWhile_replicate_append (· = '>') '>' (by decide) c []
    simp only [List.append_nil, List.takeWhile_nil, List.dropWhile_nil] at ht hd
    rw [ht, hd]
  dsimp only
  rw [h1]
  dsimp only
  rw [h2]
  dsimp only
  rw [h3]
  dsimp only
  rw [if_pos (by simp)]
  simp

theorem parseMode_sound (s : List Char) (a c : Nat)
    (h : parseMode s = some (a, c)) :
    ∃ b, s = List.replicate a '<' ++ List.replicate b '-' ++ List.replicate c '>'
      ∧ 1 ≤ b := by
  unfold parseMode at h
  simp only [span_eq] at h
  by_cases hcond : 1 ≤ ((s.dropWhile (· = '<')).takeWhile (· = '-')).length
      ∧ ((s.dropWhile (· = '<')).dropWhile (· = '-')).dropWhile (· = '>') = []
  · rw [if_pos hcond] at h
    rw [Option.some.injEq, Prod.mk.injEq] at h
    obtain ⟨ha, hc⟩ := h
    refine ⟨((s.dropWhile (· = '<')).takeWhile (· = '-')).length, ?_, hcond.1⟩
    have e1 : s.takeWhile (· = '<') = List.replicate a '<' := by
      rw [← ha]
      rw [List.eq_replicate_iff]
      exact ⟨rfl, fun b hb => by
        have := List.mem_takeWhile_imp hb
        simpa using this⟩
    have e2 : (s.dropWhile (· = '<')).takeWhile (· = '-')
        = List.replicate ((s.dropWhile (· = '<')).takeWhile (· = '-')).length '-' := by
      rw [List.eq_replicate_iff]
      exact ⟨rfl, fun b hb => by
        have := List.mem_takeWhile_imp hb
        simpa using this⟩
    have e3 : ((s.dropWhile (· = '<')).dropWhile (· = '-')).takeWhile (· = '>')
        = List.replicate c '>' := by
      rw [← hc]
      rw [List.eq_replicate_iff]
      exact ⟨rfl, fun b hb => by
        have := List.mem_takeWhile_imp hb
        simpa using this⟩
    calc s = s.takeWhile (· = '<') ++ s.dropWhile (· = '<') :=
            (List.takeWhile_append_dropWhile _ _).symm
      _ = s.takeWhile (· = '<') ++ ((s.dropWhile (· = '<')).takeWhile (· = '-')
            ++ (s.dropWhile (· = '<')).dropWhile (· = '-')) := by
            congr 1
            exact (List.takeWhile_append_dropWhile _ _).symm
      _ = s.takeWhile (· = '<') ++ ((s.dropWhile (· = '<')).takeWhile (· = '-')
            ++ (((s.dropWhile (· = '<')).dropWhile (· = '-')).takeWhile (· = '>')
              ++ ((s.dropWhile (· = '<')).dropWhile (· = '-')).dropWhile (· = '>'))) := by
            congr 1
            congr 1
            exact (List.takeWhile_append_dropWhile _ _).symm
      _ = List.replicate a '<'
            ++ List.replicate ((s.dropWhile (· = '<')).takeWhile (· = '-')).length '-'
            ++ List.replicate c '>' := by
            rw [e1, ← e2, ← e3, hcond.2]
            simp [List.append_assoc]
  · rw [if_neg hcond] at h
    cases h

theorem setupMode_ok_iff (s : List Char) :
    (setupMode s).isOk = true
    ↔ ∃ a b c, s = List.replicate a '<' ++ List.replicate b '-' ++ List.replicate c '>'
        ∧ 1 ≤ b ∧ ¬(a = 0 ∧ c = 0) ∧ (a = 0 ∨ c = 0 ∨ a = c) := by
  unfold setupMode
  cases hpm : parseMode s with
  | none =>
      refine iff_of_false (by simp [Except.isOk, Except.toBool]) ?_
      rintro ⟨a, b, c, hdec, hb, _, _⟩
      have := parseMode_complete a b c hb
      rw [← hdec] at this
      rw [hpm] at this
      cases this
  | some d =>
      obtain ⟨a, c⟩ := d
      dsimp only
      obtain ⟨b0, hdec, hb0⟩ := parseMode_sound s a c hpm
      by_cases h1 : a ≠ 0 ∧ c ≠ 0 ∧ a ≠ c
      · rw [if_pos h1]
        refine iff_of_false (by simp [Except.isOk, Except.toBool]) ?_
        rintro ⟨a', b', c', hdec', hb', hnb, hor⟩
        have h2 := parseMode_complete a' b' c' hb'
        rw [← hdec'] at h2
        rw [hpm] at h2
        simp only [Option.some.injEq, Prod.mk.injEq] at h2
        omega
      · rw [if_neg h1]
        by_cases h2 : a = 0 ∧ c = 0
        · rw [if_pos h2]
          refine iff_of_false (by simp [Except.isOk, Except.toBool]) ?_
          rintro ⟨a', b', c', hdec', hb', hnb, hor⟩
          have h3 := parseMode_complete a' b' c' hb'
          rw [← hdec'] at h3
          rw [hpm] at h3
          simp only [Option.some.injEq, Prod.mk.injEq] at h3
          omega
        · rw [if_neg h2]
          refine iff_of_true rfl ⟨a, b0, c, hdec, hb0, h2, by omega⟩

theorem contains_iff_findIdx (l : List Char) :
    l.contains '*' = true ↔ (l.findIdx? (· = '*')).isSome = true := by
  induction l with
  | nil => simp
  | cons c t ih =>
      by_cases hc : c = '*'
      · simp [hc, List.findIdx?_cons]
      · have h1 : (c :: t).contains '*' = t.contains '*' := by
          simp [List.contains_cons, Ne.symm hc]
        rw [h1, ih, List.findIdx?_cons]
        simp [hc, Option.isSome_map]

theorem processTranslations_ok_iff (rules : List (String × String)) :
    (processTranslations rules).isOk = true
    ↔ ∀ kv ∈ rules, ¬ badTranslationEntry kv.1 kv.2 := by
  induction rules with
  | nil => exact iff_of_true rfl (by simp)
  | cons kv rest ih =>
      obtain ⟨k, v⟩ := kv
      rw [List.forall_mem_cons]
      unfold processTranslations
      cases hk : k.toList.findIdx? (· = '*') with
      | none =>
          cases hv : v.toList.findIdx? (· = '*') with
          | none =>
              dsimp only
              have hnb : ¬ badTranslationEntry k v := by
                rintro (hdiff | ⟨i, j, hi, hj, _⟩)
                · have hck : k.toList.contains '*' = false := by
                    cases hck' : k.toList.contains '*' with
                    | false => rfl
                    | true =>
                        have := (contains_iff_findIdx k.toList).mp hck'
                        rw [hk] at this
                        cases this
                  have hcv : v.toList.contains '*' = false := by
                    cases hcv' : v.toList.contains '*' with
                    | false => rfl
                    | true =>
                        have := (contains_iff_findIdx v.toList).mp hcv'
                        rw [hv] at this
                        cases this
                  rw [hck, hcv] at hdiff
                  exact hdiff rfl
                · rw [hk] at hi
                  cases hi
              cases hrec : processTranslations rest with
              | error e =>
                  refine iff_of_false (fun h => Bool.noConfusion h) ?_
                  rintro ⟨_, hall⟩
                  rw [← ih] at hall
                  rw [hrec] at hall
                  simp [Except.isOk, Except.toBool] at hall
              | ok r =>
                  exact iff_of_true rfl ⟨hnb, ih.mp (by rw [hrec]; rfl)⟩
          | some j =>
              dsimp only
              refine iff_of_false (by simp [Except.isOk, Except.toBool]) ?_
              rintro ⟨hnb, _⟩
              apply hnb
              left
              have hck : k.toList.contains '*' = false := by
                cases hck' : k.toList.contains '*' with
                | false => rfl
                | true =>
                    have := (contains_iff_findIdx k.toList).mp hck'
                    rw [hk] at this
                    cases this
              have hcv : v.toList.contains '*' = true :=
                (contains_iff_findIdx v.toList).mpr (by rw [hv]; rfl)
              rw [hck, hcv]
              simp
      | some i =>
          cases hv : v.toList.findIdx? (· = '*') with
          | none =>
              dsimp only
              refine iff_of_false (by simp [Except.isOk, Except.toBool]) ?_
              rintro ⟨hnb, _⟩
              apply hnb
              left
              have hck : k.toList.contains '*' = true :=
                (contains_iff_findIdx k.toList).mpr (by rw [hk]; rfl)
              have hcv : v.toList.contains '*' = false := by
                cases hcv' : v.toList.contains '*' with
                | false => rfl
                | true =>
                    have := (contains_iff_findIdx v.toList).mp hcv'
                    rw [hv] at this
                    cases this
              rw [hck, hcv]
              simp
          | some j =>
              dsimp only
              by_cases hne : k.toList.drop i ≠ v.toList.drop j
              · rw [if_pos hne]
                refine iff_of_false (by simp [Except.isOk, Except.toBool]) ?_
                rintro ⟨hnb, _⟩
                exact hnb (Or.inr ⟨i, j, hk, hv, hne⟩)
              · rw [if_neg hne]
                have hnb : ¬ badTranslationEntry k v := by
                  rintro (hdiff | ⟨i', j', hi', hj', hne'⟩)
                  · have hck : k.toList.contains '*' = true :=
                      (contains_iff_findIdx k.toList).mpr (by rw [hk]; rfl)
                    have hcv : v.toList.contains '*' = true :=
                      (contains_iff_findIdx v.toList).mpr (by rw [hv]; rfl)
                    rw [hck, hcv] at hdiff
                    exact hdiff rfl
                  · rw [hk, Option.some.injEq] at hi'
                    rw [hv, Option.some.injEq] at hj'
                    subst hi'
                    subst hj'
                    exact hne hne'
                cases hrec : processTranslations rest with
                | error e =>
                    refine iff_of_false (fun h => Bool.noConfusion h) ?_
                    rintro ⟨_, hall⟩
                    rw [← ih] at hall
                    rw [hrec] at hall
                    simp [Except.isOk, Except.toBool] at hall
                | ok r =>
                    exact iff_of_true rfl ⟨hnb, ih.mp (by rw [hrec]; rfl)⟩

theorem connectorNew_isOk (mode : String) (pt : Option (List (String × String))) :
    (connectorNew mode pt).isOk = ((setupMode mode.toList).isOk && ptOk pt) := by
  unfold connectorNew
  cases hsm : setupMode mode.toList with
  | error e => rfl
  | ok d =>
      cases pt with
      | none => rfl
      | some rules =>
          show (Except.bind (processTranslations rules) fun r =>
              (Except.ok (d, r.1, r.2) :
                Except Unit ((Nat × Nat) × List (String × String) × List PatRule))).isOk
            = (processTranslations rules).isOk
          cases hpt : processTranslations rules with
          | error e => rfl
          | ok r => rfl

theorem mode_error_cases (s : List Char) :
    (¬ ∃ a b c, s = List.replicate a '<' ++ List.replicate b '-' ++ List.replicate c '>'
        ∧ 1 ≤ b ∧ ¬(a = 0 ∧ c = 0) ∧ (a = 0 ∨ c = 0 ∨ a = c))
    ↔ (¬ ModeGrammar s
        ∨ (∃ a b c, s = List.replicate a '<' ++ List.replicate b '-' ++ List.replicate c '>'
            ∧ 1 ≤ b ∧ a = 0 ∧ c = 0)
        ∨ (∃ a b c, s = List.replicate a '<' ++ List.replicate b '-' ++ List.replicate c '>'
            ∧ 1 ≤ b ∧ a ≠ 0 ∧ c ≠ 0 ∧ a ≠ c)) := by
  constructor
  · intro hno
    by_cases hg : ModeGrammar s
    · obtain ⟨a, b, c, hdec, hb⟩ := hg
      right
      by_cases hz : a = 0 ∧ c = 0
      · exact Or.inl ⟨a, b, c, hdec, hb, hz.1, hz.2⟩
      · have hor : ¬(a = 0 ∨ c = 0 ∨ a = c) := fun h2 => hno ⟨a, b, c, hdec, hb, hz, h2⟩
        push_neg at hor
        exact Or.inr ⟨a, b, c, hdec, hb, hor.1, hor.2.1, hor.2.2⟩
    · exact Or.inl hg
  · rintro (hg | ⟨a, b, c, hdec, hb, ha, hc⟩ | ⟨a, b, c, hdec, hb, ha, hc, hne⟩)
        ⟨a', b', c', hdec', hb', hnb, hor⟩
    · exact hg ⟨a', b', c', hdec', hb'⟩
    · have h1 := parseMode_complete a b c hb
      have h2 := parseMode_complete a' b' c' hb'
      rw [← hdec] at h1
      rw [← hdec'] at h2
      rw [h1] at h2
      simp only [Option.some.injEq, Prod.mk.injEq] at h2
      omega
    · have h1 := parseMode_complete a b c hb
      have h2 := parseMode_complete a' b' c' hb'
      rw [← hdec] at h1
      rw [← hdec'] at h2
      rw [h1] at h2
      simp only [Option.some.injEq, Prod.mk.injEq] at h2
      omega

/-- C3: Connector construction fails (synchronously, producing no object)
exactly when the mode string is outside the grammar left-arrows, dashes,
right-arrows; or the mode is in the grammar with both arrow depths zero; or
with both depths nonzero and unequal; or some `options.pathTranslation` entry
carries `*` on exactly one side or on both sides with differing substrings
from the first `*` on. For every other mode string and translation table,
construction does not throw. -/
theorem claim_construction_errors (mode : String)
    (pt : Option (List (String × String))) :
    (connectorNew mode pt).isOk = false
    ↔ ((¬ ModeGrammar mode.toList)
        ∨ (∃ a b c, mode.toList
              = List.replicate a '<' ++ List.replicate b '-' ++ List.replicate c '>'
            ∧ 1 ≤ b ∧ a = 0 ∧ c = 0)
        ∨ (∃ a b c, mode.toList
              = List.replicate a '<' ++ List.replicate b '-' ++ List.replicate c '>'
            ∧ 1 ≤ b ∧ a ≠ 0 ∧ c ≠ 0 ∧ a ≠ c)
        ∨ (∃ rules, pt = some rules ∧ ∃ kv ∈ rules, badTranslationEntry kv.1 kv.2)) := by
  have hbool : ∀ b : Bool, (b = false) ↔ ¬(b = true) := by decide
  have handb : ∀ x y : Bool, ((x && y) = false) ↔ (x = false ∨ y = false) := by decide
  have hand : (connectorNew mode pt).isOk = false
      ↔ ((setupMode mode.toList).isOk = false ∨ ptOk pt = false) := by
    rw [connectorNew_isOk, handb]
  have hmode := (hbool ((setupMode mode.toList).isOk)).trans
    (not_congr (setupMode_ok_iff mode.toList))
  have htrans : ptOk pt = false
      ↔ ∃ rules, pt = some rules ∧ ∃ kv ∈ rules, badTranslationEntry kv.1 kv.2 := by
    clear hand
    cases pt with
    | none => simp [ptOk]
    | some rules =>
        unfold ptOk
        constructor
        · intro hfalse
          have hne := (hbool _).mp hfalse
          rw [processTranslations_ok_iff] at hne
          push_neg at hne
          obtain ⟨kv, hkv, hbad⟩ := hne
          exact ⟨rules, rfl, kv, hkv, hbad⟩
        · rintro ⟨rules', heq, kv, hkv, hbad⟩
          rw [Option.some.injEq] at heq
          subst heq
          apply (hbool _).mpr
          intro hok
          rw [processTranslations_ok_iff] at hok
          exact hok kv hkv hbad
  rw [hand, hmode, htrans, mode_error_cases mode.toList, or_assoc, or_assoc]

/-- Closed witness for C3: the mode `"<<->"` has unequal nonzero depths, so
construction fails. -/
theorem claim_construction_errors_witness :
    (connectorNew "<<->" none).isOk = false :=
  (claim_construction_errors "<<->" none).mpr
    (Or.inr (Or.inr (Or.inl
      ⟨2, 1, 1, by decide, by decide, by decide, by decide, by decide⟩)))

end Milo
